import Mathlib

/-!
Verification development for the `r2proto3` translator: a shallow embedding of
the type-expression resolver (`src/types.rs`), the entity assembler
(`src/parser.rs`) and the schema renderer, together with theorems settling the
specification claims.

Strings are modelled as lists of characters (`Str`); all inputs of interest are
ASCII, where Rust's byte indices and `chars()` indices coincide.
-/

deriving instance DecidableEq for Except

/-- A string, modelled as its list of characters. -/
abbrev Str := List Char

/-- Convert a Lean string literal to the `Str` model. -/
def str (s : String) : Str := s.toList

/-- Embedding of `R2Proto3Error` (src/utils.rs): an optional boxed cause plus a
description.  The `Option` cause is flattened into two constructors so the
type is a plain (non-nested) inductive. -/
inductive Err where
  | mk0 (description : String)
  | mk1 (cause : Err) (description : String)
deriving DecidableEq, Repr

/-- Embedding of `R2Proto3Error::new(cause, description)`. -/
def Err.new : Option Err → String → Err
  | none, d => .mk0 d
  | some e, d => .mk1 e d

/-- The `cause` field of an error. -/
def Err.cause : Err → Option Err
  | .mk0 _ => none
  | .mk1 e _ => some e

/-- The `description` field of an error. -/
def Err.description : Err → String
  | .mk0 d => d
  | .mk1 _ d => d

/-- The character class `[a-zA-Z0-9<>()\[\],:_ ]` used by all three inner-type
regular expressions in `TypesParser::new` (src/types.rs). -/
def isTypeChar (c : Char) : Bool :=
  c.isAlpha || c.isDigit ||
    (['<', '>', '(', ')', '[', ']', ',', ':', '_', ' '] : List Char).contains c

/-- Greedy matching of the regex tail `([class]*)>` against a string: returns
the longest prefix made of `isTypeChar` characters that is immediately
followed by a literal `>`, i.e. the capture group of `Vec<([class]*)>` once
the literal head has been consumed.  Mirrors the backtracking semantics of a
greedy `*` in Rust's regex crate. -/
def greedyCap : Str → Option Str
  | [] => none
  | c :: rest =>
    if isTypeChar c then
      match greedyCap rest with
      | some p => some (c :: p)
      | none => if c == '>' then some [] else none
    else if c == '>' then some [] else none

/-- `captures_iter(s).next()` for a regex of shape `lit<([class]*)>`
(`inner_vec_type_re` / `inner_option_type_re` in src/types.rs): the capture of
the leftmost match, where `pat` is the literal head including `<`
(e.g. `"Vec<"`).  The scan proceeds left to right; at each occurrence of the
literal head the greedy capture is attempted, and on failure the engine moves
to the next position. -/
def findWrapCapture (pat : Str) : Str → Option Str
  | [] => none
  | c :: rest =>
    if pat.isPrefixOf (c :: rest) then
      match greedyCap ((c :: rest).drop pat.length) with
      | some p => some p
      | none => findWrapCapture pat rest
    else findWrapCapture pat rest

/-- `captures_iter(s).next()` for `inner_map_type_re =
(HashMap<([class]*)>)|(BTreeMap<([class]*)>)`: the inner capture (the second
participating group extracted by `extract::<2>()`) of the leftmost match of
either alternative. -/
def findMapCapture : Str → Option Str
  | [] => none
  | c :: rest =>
    if (str "HashMap<").isPrefixOf (c :: rest) then
      match greedyCap ((c :: rest).drop 8) with
      | some p => some p
      | none => findMapCapture rest
    else if (str "BTreeMap<").isPrefixOf (c :: rest) then
      match greedyCap ((c :: rest).drop 9) with
      | some p => some p
      | none => findMapCapture rest
    else findMapCapture rest

/-- `OPENERS.iter().position(|c| *c == sym)` for `OPENERS = ['<', '(', '[']`. -/
def openerPos (c : Char) : Option Nat :=
  if c == '<' then some 0 else if c == '(' then some 1
  else if c == '[' then some 2 else none

/-- `CLOSERS.iter().position(|c| *c == sym)` for `CLOSERS = ['>', ')', ']']`. -/
def closerPos (c : Char) : Option Nat :=
  if c == '>' then some 0 else if c == ')' then some 1
  else if c == ']' then some 2 else none

/-- The delimiter-mismatch error of `TypesParser::split_inner_types`. -/
def mismatchedDelimitersErr : Err :=
  Err.new none "can\x27t parse inner types due to invalid types\x27 openers and closers (`<([` and `>)]` stack"

/-- The scanning loop of `TypesParser::split_inner_types` (src/types.rs):
`rest` is `inner.drop i`, `stack` the stack of open delimiters (top at the
head), `beginIndex` the start index of the current piece and `types` the
pieces produced so far.  A comma splits only when the stack is empty and
`beginIndex + 1 < i`. -/
def splitGo (inner : Str) : Str → Nat → List Char → Nat → List Str → Except Err (List Str)
  | [], _, _, beginIndex, types => .ok (types ++ [inner.drop beginIndex])
  | sym :: rest, i, stack, beginIndex, types =>
    match openerPos sym with
    | some _ => splitGo inner rest (i + 1) (sym :: stack) beginIndex types
    | none =>
      match closerPos sym with
      | some pos =>
        match stack with
        | [] => .error mismatchedDelimitersErr
        | o :: stack' =>
          if openerPos o = some pos then splitGo inner rest (i + 1) stack' beginIndex types
          else .error mismatchedDelimitersErr
      | none =>
        if sym == ',' && stack.isEmpty && decide (beginIndex + 1 < i) then
          splitGo inner rest (i + 1) stack (i + 1)
            (types ++ [(inner.drop beginIndex).take (i - beginIndex)])
        else splitGo inner rest (i + 1) stack beginIndex types

/-- `TypesParser::split_inner_types`. -/
def splitInnerTypes (inner : Str) : Except Err (List Str) :=
  splitGo inner inner 0 [] 0 []

/-- Rust's `str::trim` (for the ASCII inputs at hand). -/
def trimStr (l : Str) : Str :=
  ((l.dropWhile Char.isWhitespace).reverse.dropWhile Char.isWhitespace).reverse

/-- Index of the first occurrence of `pat` as a contiguous segment of `l`
(`str::find` in Rust). -/
def findSegIdx (pat : Str) : Str → Option Nat
  | [] => if pat.isPrefixOf ([] : Str) then some 0 else none
  | c :: rest =>
    if pat.isPrefixOf (c :: rest) then some 0
    else (findSegIdx pat rest).map (· + 1)

/-- The `if let Some(pos) = rust_type.find("//")` step of
`drop_type_unnecessary_stuff`: truncate at the first `//` and trim again. -/
def stripLineComment (t : Str) : Str :=
  match findSegIdx (str "//") t with
  | some pos => trimStr (t.take pos)
  | none => t

/-- The `ends_with(',')`/`truncate` step of `drop_type_unnecessary_stuff`. -/
def stripTrailingComma (t : Str) : Str :=
  if t.getLast? = some ',' then t.dropLast else t

/-- `TypesParser::drop_type_unnecessary_stuff`: trim, cut a trailing `//`
line comment (trimming again), then strip one trailing comma. -/
def dropTypeUnnecessaryStuff (rustType : Str) : Str :=
  stripTrailingComma (stripLineComment (trimStr rustType))

/-- One step of Rust's `str::replace(pat, "")`: removes every (leftmost,
non-overlapping) occurrence of `pat`.  Implemented with explicit fuel so the
definition is structurally recursive. -/
def removeAllF (pat : Str) : Nat → Str → Str
  | 0, s => s
  | _ + 1, [] => []
  | f + 1, c :: rest =>
    if pat.isPrefixOf (c :: rest) then removeAllF pat f ((c :: rest).drop pat.length)
    else c :: removeAllF pat f rest

/-- `str::replace(pat, "")`. -/
def removeAll (pat s : Str) : Str := removeAllF pat (s.length + 1) s

/-- `TypesParser::clear_type_name`: strips visibility qualifiers. -/
def clearTypeName (name : Str) : Str :=
  removeAll (str "pub(super) ") (removeAll (str "pub(crate) ") (removeAll (str "pub ") name))

/-- The unsupported-map-key error of `rust_type_to_protobuf`. -/
def unsupportedKeyErr (rustType : Str) : Err :=
  Err.new none ("this key type is not supported by `proto3`: " ++ String.mk rustType)

/-- The unknown-type error of `rust_type_to_protobuf`. -/
def unknownTypeErr (rustType : Str) : Err :=
  Err.new none ("unknown type - `" ++ String.mk rustType ++ "`")

/-- The double-`repeated` error of `rust_type_to_protobuf`. -/
def doubleRepeatedErr : Err :=
  Err.new none "need to use `repeated` twice: consider not to use Vec<Vec<_>> etc."

/-- The double-`optional` error of `rust_type_to_protobuf`. -/
def doubleOptionalErr : Err :=
  Err.new none "need to use `optional` twice: consider not to use Option<Option<_>> etc."

/-- The wrong-arity error for map wrappers. -/
def mapArityErr : Err :=
  Err.new none "there is only one or more than 2 inner types of `HashMap`/`BTreeMap`"

/-- The fixed scalar arms of the `match rust_type` in
`TypesParser::rust_type_to_protobuf` (src/types.rs): `some` with the arm's
result when one of the literal patterns matches, `none` when the wildcard arm
applies. -/
def scalarResult (rustType : Str) (forMapKey : Bool) : Option (Except Err Str) :=
  if rustType = str "f64" then
    some (if !forMapKey then .ok (str "double") else .error (unsupportedKeyErr rustType))
  else if rustType = str "f32" ∨ rustType = str "f16" ∨ rustType = str "f8" then
    some (if !forMapKey then .ok (str "float") else .error (unsupportedKeyErr rustType))
  else if rustType = str "i64" then some (.ok (str "int64"))
  else if rustType = str "i32" ∨ rustType = str "i16" ∨ rustType = str "i8" then
    some (.ok (str "int32"))
  else if rustType = str "u64" then some (.ok (str "uint64"))
  else if rustType = str "u32" ∨ rustType = str "u16" ∨ rustType = str "u8" then
    some (.ok (str "uint32"))
  else if rustType = str "bool" then some (.ok (str "bool"))
  else if rustType = str "String" then some (.ok (str "string"))
  else if rustType = str "Vec<u8>" then
    some (if !forMapKey then .ok (str "bytes") else .error (unsupportedKeyErr rustType))
  else none

/-- The body of `TypesParser::rust_type_to_protobuf` (src/types.rs),
abstracted over the recursive call `rec`.  The branch order mirrors the Rust
`match`: the fixed scalar table first, then — inside the wildcard arm — the
`Vec<…>` regex, the `Option<…>` regex, the map regex, the known-types
fallback, and finally the unknown-type error. -/
def resolveBody (rec : Str → List Str → Bool → Except Err Str)
    (rustType : Str) (knownTypes : List Str) (forMapKey : Bool) : Except Err Str :=
  match scalarResult rustType forMapKey with
  | some r => r
  | none =>
    match findWrapCapture (str "Vec<") rustType with
    | some inner =>
      match rec inner knownTypes false with
      | .error e => .error e
      | .ok innerType =>
        if (str "repeated").isPrefixOf innerType then .error doubleRepeatedErr
        else .ok (str "repeated " ++ innerType)
    | none =>
      match findWrapCapture (str "Option<") rustType with
      | some inner =>
        match rec inner knownTypes false with
        | .error e => .error e
        | .ok innerType =>
          if (str "optional").isPrefixOf innerType then .error doubleOptionalErr
          else .ok (str "optional " ++ innerType)
      | none =>
        match findMapCapture rustType with
        | some inner =>
          match splitInnerTypes inner with
          | .error e => .error e
          | .ok pieces =>
            match pieces.map dropTypeUnnecessaryStuff with
            | [keyType, valueType] =>
              (match rec keyType knownTypes true with
               | .error e => .error e
               | .ok innerKeyType =>
                 match rec valueType knownTypes false with
                 | .error e => .error e
                 | .ok innerValueType =>
                   .ok (str "map<" ++ innerKeyType ++ str ", " ++ innerValueType ++ str ">"))
            | _ => .error mapArityErr
        | none =>
          if knownTypes.contains rustType then .ok rustType
          else .error (unknownTypeErr rustType)

/-- Fuel-indexed unfolding of `rust_type_to_protobuf`.  The recursion of the
Rust function always descends to a strictly shorter type expression, so any
fuel exceeding the expression length computes the function
(`rust_type_to_protobuf_eq` below). -/
def rustTypeToProtobufF : Nat → Str → List Str → Bool → Except Err Str
  | 0, _, _, _ => .error (Err.new none "out of fuel")
  | fuel + 1, rustType, knownTypes, forMapKey =>
    resolveBody (rustTypeToProtobufF fuel) rustType knownTypes forMapKey

/-- `TypesParser::rust_type_to_protobuf`. -/
def rust_type_to_protobuf (rustType : Str) (knownTypes : List Str) (forMapKey : Bool) :
    Except Err Str :=
  rustTypeToProtobufF (rustType.length + 1) rustType knownTypes forMapKey

/-- Rust's `str::split(':')` (src/parser.rs, `parse_struct_fields`). -/
def splitOnChar (sep : Char) : Str → List Str
  | [] => [[]]
  | c :: rest =>
    if c == sep then [] :: splitOnChar sep rest
    else
      match splitOnChar sep rest with
      | [] => [[c]]
      | p :: ps => (c :: p) :: ps

/-- Embedding of `ProtobufField` (src/parser.rs). -/
structure ProtobufField where
  name : Str
  rust_type : Str
  proto3_type : Str
  field_num : Int
deriving DecidableEq, Repr

/-- Embedding of `ProtobufEnumVariant` (src/parser.rs). -/
structure ProtobufEnumVariant where
  name : Str
  value : Int
deriving DecidableEq, Repr

/-- Embedding of `ProtobufEntityType` (src/parser.rs). -/
inductive ProtobufEntityType where
  | message (fields : List ProtobufField)
  | enum (variants : List ProtobufEnumVariant)
  | rpc
deriving DecidableEq, Repr

/-- Embedding of `ProtobufEntity` (src/parser.rs). -/
structure ProtobufEntity where
  entity_type : ProtobufEntityType
  name : Str
deriving DecidableEq, Repr

/-- The field-number-overflow error of `parse_struct_fields`. -/
def tooBigErr : Err := Err.new none "very big message! Max field number = 536_870_911"

/-- Processing of one raw struct line in `parse_struct_fields`: split on `:`;
one part means a tuple-style anonymous value, two or more parts mean a named
field whose type is the re-joined remainder; zero parts (impossible for
Rust's `split`) fall through without pushing a field, exactly like the Rust
`if`/`else if` chain. -/
def structLineField (known : List Str) (valueCntr : Int) (field : Str) :
    Except Err (Option ProtobufField) :=
  match splitOnChar ':' field with
  | [single] =>
    let rustType := dropTypeUnnecessaryStuff single
    match rust_type_to_protobuf rustType known false with
    | .error e => .error e
    | .ok p3 => .ok (some ⟨str ("anonymous_value_" ++ toString valueCntr), rustType, p3, valueCntr⟩)
  | p0 :: p1 :: ps =>
    let fieldName := clearTypeName p0
    let rustType := dropTypeUnnecessaryStuff (List.intercalate [':'] (p1 :: ps))
    match rust_type_to_protobuf rustType known false with
    | .error e => .error e
    | .ok p3 => .ok (some ⟨fieldName, rustType, p3, valueCntr⟩)
  | [] => .ok none

/-- The loop of `Parser::parse_struct_fields` (src/parser.rs): `valueCntr` is
the running field-number counter; after each line it is incremented, forced
from 19000 to 20000, and the struct is rejected when it reaches 536870912. -/
def parseStructFieldsGo (known : List Str) :
    List Str → Int → List ProtobufField → Except Err (List ProtobufField)
  | [], _, fields => .ok fields
  | field :: rest, valueCntr, fields =>
    match structLineField known valueCntr field with
    | .error e => .error e
    | .ok newField =>
      let fields' := match newField with
        | some f => fields ++ [f]
        | none => fields
      if valueCntr + 1 = 19000 then parseStructFieldsGo known rest 20000 fields'
      else if valueCntr + 1 = 536870912 then .error tooBigErr
      else parseStructFieldsGo known rest (valueCntr + 1) fields'

/-- `Parser::parse_struct_fields`. -/
def parse_struct_fields (known : List Str) (fieldsStr : List Str) :
    Except Err (List ProtobufField) :=
  parseStructFieldsGo known fieldsStr 1 []

/-- The value-carrying-variant error of `parse_enum_fields`. -/
def valueCarryingErr (variant : Str) : Err :=
  Err.new none ("current version of `r2proto3` isn\x27t supporting enums with values in them - in variant `"
    ++ String.mk variant ++ "`")

/-- The loop of `Parser::parse_enum_fields` (src/parser.rs). -/
def parseEnumFieldsGo : List Str → Int → List ProtobufEnumVariant → Except Err (List ProtobufEnumVariant)
  | [], _, variants => .ok variants
  | variantLine :: rest, variantIdCntr, variants =>
    let variant := dropTypeUnnecessaryStuff variantLine
    if variant.contains '(' then .error (valueCarryingErr variant)
    else parseEnumFieldsGo rest (variantIdCntr + 1) (variants ++ [⟨variant, variantIdCntr⟩])

/-- `Parser::parse_enum_fields`. -/
def parse_enum_fields (variantsStr : List Str) : Except Err (List ProtobufEnumVariant) :=
  parseEnumFieldsGo variantsStr 0 []

/-- The `types : BTreeMap<String, ProtobufEntity>` registry, modelled as an
association list kept sorted by key; the key order is the lexicographic order
on character lists, which is the order of Rust's `BTreeMap<String, _>` keys
(byte order agrees with scalar-value order). -/
abbrev Registry := List (Str × ProtobufEntity)

/-- `BTreeMap::insert`: insertion at the sorted position, overwriting an
entry with an equal key. -/
def registryInsert : Registry → Str → ProtobufEntity → Registry
  | [], k, v => [(k, v)]
  | (k', v') :: rest, k, v =>
    if k < k' then (k, v) :: (k', v') :: rest
    else if k = k' then (k, v) :: rest
    else (k', v') :: registryInsert rest k v

/-- `BTreeMap::get`-style lookup in the registry. -/
def lookupReg : Registry → Str → Option ProtobufEntity
  | [], _ => none
  | (k', v') :: rest, k => if k' = k then some v' else lookupReg rest k

/-- The run-level error wrapping a failed struct in strict
(`panic_to_unsupported`) mode. -/
def structFailErr (e : Err) (name : Str) : Err :=
  Err.new (some e) ("Warning: the struct `" ++ String.mk name ++ "` won\x27t be attached to `.proto` file")

/-- The run-level error wrapping a failed enum in strict mode. -/
def enumFailErr (e : Err) (name : Str) : Err :=
  Err.new (some e) ("Warning: the enum `" ++ String.mk name ++ "` won\x27t be attached to `.proto` file")

/-- The `for message in messages` loop of `Parser::parse` (src/parser.rs):
a struct that resolves is inserted into the registry; a failing struct either
aborts the run (strict mode, wrapping its error as the cause) or is skipped. -/
def processMessages (strict : Bool) (known : List Str) :
    List (Str × List Str) → Registry → Except Err Registry
  | [], types => .ok types
  | (name, lines) :: rest, types =>
    match parse_struct_fields known lines with
    | .ok fields => processMessages strict known rest (registryInsert types name ⟨.message fields, name⟩)
    | .error e =>
      if strict then .error (structFailErr e name)
      else processMessages strict known rest types

/-- The `for enum in enums` loop of `Parser::parse`. -/
def processEnums (strict : Bool) (known : List Str) :
    List (Str × List Str) → Registry → Except Err Registry
  | [], types => .ok types
  | (name, lines) :: rest, types =>
    match parse_enum_fields lines with
    | .ok variants => processEnums strict known rest (registryInsert types name ⟨.enum variants, name⟩)
    | .error e =>
      if strict then .error (enumFailErr e name)
      else processEnums strict known rest types

/-- The resolution phase of `Parser::parse`: all extracted structs are
processed first, then all extracted enums, starting from an empty registry. -/
def parseCore (strict : Bool) (msgs enums : List (Str × List Str)) (known : List Str) :
    Except Err Registry :=
  match processMessages strict known msgs [] with
  | .error e => .error e
  | .ok types => processEnums strict known enums types

/-- The registry produced by the lenient run: failing structs contribute
nothing, successful ones are inserted in order. -/
def messagesFold (known : List Str) : List (Str × List Str) → Registry → Registry
  | [], types => types
  | (name, lines) :: rest, types =>
    match parse_struct_fields known lines with
    | .ok fields => messagesFold known rest (registryInsert types name ⟨.message fields, name⟩)
    | .error _ => messagesFold known rest types

/-- The enum half of the lenient registry fold. -/
def enumsFold (known : List Str) : List (Str × List Str) → Registry → Registry
  | [], types => types
  | (name, lines) :: rest, types =>
    match parse_enum_fields lines with
    | .ok variants => enumsFold known rest (registryInsert types name ⟨.enum variants, name⟩)
    | .error _ => enumsFold known rest types

/-- The registry of all successfully resolved entities. -/
def successRegistry (msgs enums : List (Str × List Str)) (known : List Str) : Registry :=
  enumsFold known enums (messagesFold known msgs [])

/-- The duplicate-name diagnostic printed during extraction
(`println!(r#"Dublicate type: "{}""#, name)` in `Parser::parse`). -/
def dupWarning (n : Str) : String := "Dublicate type: \"" ++ String.mk n ++ "\""

/-- The `known_types.insert` bookkeeping of the extraction loop in
`Parser::parse`: collects the set of declared type names in encounter order
and a diagnostic for every duplicate. -/
def collectKnownTypesGo : List Str → List Str → List String → List Str × List String
  | [], acc, warns => (acc, warns)
  | n :: rest, acc, warns =>
    if n ∈ acc then collectKnownTypesGo rest acc (warns ++ [dupWarning n])
    else collectKnownTypesGo rest (acc ++ [n]) warns

/-- The known-types set and duplicate warnings for a list of declared names. -/
def collectKnownTypes (names : List Str) : List Str × List String :=
  collectKnownTypesGo names [] []

/-- `pat` occurs as a contiguous segment of `s` (substring occurrence). -/
def segOccurs (pat : Str) : Str → Bool
  | [] => pat.isEmpty
  | c :: rest => pat.isPrefixOf (c :: rest) || segOccurs pat rest

/-- The argument splitter as described by the (amended) specification: a
left-to-right scan over the wrapper's inner text, maintaining a stack of open
delimiters and accumulating the current piece character by character; a
top-level comma starts a new piece only when the piece accumulated so far has
at least two characters. -/
def claimSplitGo : Str → List Char → Str → List Str → Except Err (List Str)
  | [], _, cur, acc => .ok (acc ++ [cur])
  | sym :: rest, stack, cur, acc =>
    match openerPos sym with
    | some _ => claimSplitGo rest (sym :: stack) (cur ++ [sym]) acc
    | none =>
      match closerPos sym with
      | some pos =>
        match stack with
        | [] => .error mismatchedDelimitersErr
        | o :: stack' =>
          if openerPos o = some pos then claimSplitGo rest stack' (cur ++ [sym]) acc
          else .error mismatchedDelimitersErr
      | none =>
        if sym == ',' && stack.isEmpty && decide (2 ≤ cur.length) then
          claimSplitGo rest stack [] (acc ++ [cur])
        else claimSplitGo rest stack (cur ++ [sym]) acc

/-- Entry point of the specification-side splitter. -/
def claimSplit (inner : Str) : Except Err (List Str) := claimSplitGo inner [] [] []

/-- The delimiter discipline of the splitter's scan, in isolation: `true` iff
scanning the remaining characters starting from the given stack of open
delimiters never meets a closer whose kind differs from the top of the stack
(a mismatch), leftover unclosed openers being permitted. -/
def delimScanOk : Str → List Char → Bool
  | [], _ => true
  | sym :: rest, stack =>
    match openerPos sym with
    | some _ => delimScanOk rest (sym :: stack)
    | none =>
      match closerPos sym with
      | some pos =>
        match stack with
        | [] => false
        | o :: stack' => (openerPos o == some pos) && delimScanOk rest stack'
      | none => delimScanOk rest stack

/-- One entity's text in `Parser::generate` (src/parser.rs).  The `Rpc`
entity kind hits `unimplemented!()` in the source, i.e. a panic, modelled as
`none`; `Parser::parse` never constructs an `Rpc` entity. -/
def renderEntity (typeName : Str) (entity : ProtobufEntity) : Option String :=
  match entity.entity_type with
  | .message msg =>
    some ("\n" ++ "message " ++ String.mk typeName ++ " \x7b" ++
      String.join (msg.map fun field =>
        "\n" ++ "  " ++ String.mk field.proto3_type ++ " " ++ String.mk field.name ++ " = "
          ++ toString field.field_num ++ ";") ++
      "\n\x7d\n")
  | .enum variants =>
    some ("\n" ++ "enum " ++ String.mk typeName ++ " \x7b" ++
      String.join (variants.map fun variant =>
        "\n" ++ "  " ++ String.mk variant.name ++ " = " ++ toString variant.value ++ ";") ++
      "\n\x7d\n")
  | .rpc => none

/-- One iteration of the `for (type_name, type) in &self.types` loop of
`Parser::generate`: append the entity's text to the accumulated contents,
propagating the `Rpc` panic. -/
def generateStep (contents : Option String) (kv : Str × ProtobufEntity) : Option String := do
  let c ← contents
  let e ← renderEntity kv.1 kv.2
  pure (c ++ e)

/-- `Parser::generate`: the `syntax` header followed by every registry entity
in registry (ascending-name) order. -/
def generate (types : Registry) : Option String :=
  types.foldl generateStep (some ("syntax = \"proto3\";" ++ "\n"))

/-- The split-then-resolve pipeline of the resolver's map branch, as the
specification describes it: split the inner argument text with the
delimiter-respecting splitter, normalize each piece, require exactly two
arguments, resolve the first as a map key and the second as a value, and emit
`map<K, V>`. -/
def mapBranch (inner : Str) (K : List Str) : Except Err Str :=
  match splitInnerTypes inner with
  | .error e => .error e
  | .ok pieces =>
    match pieces.map dropTypeUnnecessaryStuff with
    | [keyType, valueType] =>
      (match rust_type_to_protobuf keyType K true with
       | .error e => .error e
       | .ok innerKeyType =>
         match rust_type_to_protobuf valueType K false with
         | .error e => .error e
         | .ok innerValueType =>
           .ok (str "map<" ++ innerKeyType ++ str ", " ++ innerValueType ++ str ">"))
    | _ => .error mapArityErr

/-- The counter transition of `parse_struct_fields`: increment, with the
forced jump from 19000 to 20000. -/
def cntrStep (c : Int) : Int := if c + 1 = 19000 then 20000 else c + 1

/-! ### Lemmas about the regex-capture machinery -/

theorem greedyCap_length : ∀ {l p : Str}, greedyCap l = some p → p.length < l.length := by
  intro l
  induction l with
  | nil => intro p h; simp [greedyCap] at h
  | cons c rest ih =>
    intro p h
    simp only [greedyCap] at h
    by_cases hc : isTypeChar c = true
    · rw [if_pos hc] at h
      cases hgc : greedyCap rest with
      | some q =>
        rw [hgc] at h
        simp only [Option.some.injEq] at h
        subst h
        have := ih hgc
        simp only [List.length_cons]
        omega
      | none =>
        rw [hgc] at h
        by_cases hgt : (c == '>') = true
        · rw [if_pos hgt] at h
          simp only [Option.some.injEq] at h
          subst h
          simp
        · rw [if_neg hgt] at h
          exact absurd h (by simp)
    · rw [if_neg hc] at h
      by_cases hgt : (c == '>') = true
      · rw [if_pos hgt] at h
        simp only [Option.some.injEq] at h
        subst h
        simp
      · rw [if_neg hgt] at h
        exact absurd h (by simp)

theorem greedyCap_append : ∀ {T : Str}, T.all isTypeChar = true → greedyCap (T ++ ['>']) = some T := by
  intro T hT
  induction T with
  | nil => decide
  | cons c rest ih =>
    simp only [List.all_cons, Bool.and_eq_true] at hT
    obtain ⟨hc, hrest⟩ := hT
    have hr := ih hrest
    simp only [List.cons_append, greedyCap, hc, if_true, List.append_eq, hr]

theorem findWrapCapture_length :
    ∀ {s pat p : Str}, pat ≠ [] → findWrapCapture pat s = some p → p.length < s.length := by
  intro s
  induction s with
  | nil => intro pat p _ h; simp [findWrapCapture] at h
  | cons c rest ih =>
    intro pat p hpat h
    simp only [findWrapCapture] at h
    by_cases hp : pat.isPrefixOf (c :: rest) = true
    · rw [if_pos hp] at h
      cases hgc : greedyCap ((c :: rest).drop pat.length) with
      | some q =>
        rw [hgc] at h
        simp only [Option.some.injEq] at h
        subst h
        have h1 := greedyCap_length hgc
        have h2 : pat.length ≤ (c :: rest).length :=
          (List.isPrefixOf_iff_prefix.mp hp).length_le
        have h3 : 0 < pat.length := List.length_pos.mpr hpat
        rw [List.length_drop] at h1
        omega
      | none =>
        rw [hgc] at h
        have := ih hpat h
        simp only [List.length_cons]
        omega
    · rw [if_neg hp] at h
      have := ih hpat h
      simp only [List.length_cons]
      omega

theorem findWrapCapture_of_not_occurs :
    ∀ {s pat : Str}, segOccurs pat s = false → findWrapCapture pat s = none := by
  intro s
  induction s with
  | nil => intro pat _; rfl
  | cons c rest ih =>
    intro pat h
    simp only [segOccurs, Bool.or_eq_false_iff] at h
    obtain ⟨h1, h2⟩ := h
    simp only [findWrapCapture, h1, Bool.false_eq_true, if_false]
    exact ih h2

theorem findMapCapture_length : ∀ {s p : Str}, findMapCapture s = some p → p.length < s.length := by
  intro s
  induction s with
  | nil => intro p h; simp [findMapCapture] at h
  | cons c rest ih =>
    intro p h
    simp only [findMapCapture] at h
    by_cases hp : (str "HashMap<").isPrefixOf (c :: rest) = true
    · rw [if_pos hp] at h
      cases hgc : greedyCap ((c :: rest).drop 8) with
      | some q =>
        rw [hgc] at h
        simp only [Option.some.injEq] at h
        subst h
        have h1 := greedyCap_length hgc
        have h2 : (str "HashMap<").length ≤ (c :: rest).length :=
          (List.isPrefixOf_iff_prefix.mp hp).length_le
        simp only [str] at h2
        rw [List.length_drop] at h1
        simp only [List.length_cons] at *
        omega
      | none =>
        rw [hgc] at h
        have := ih h
        simp only [List.length_cons]
        omega
    · rw [if_neg hp] at h
      by_cases hb : (str "BTreeMap<").isPrefixOf (c :: rest) = true
      · rw [if_pos hb] at h
        cases hgc : greedyCap ((c :: rest).drop 9) with
        | some q =>
          rw [hgc] at h
          simp only [Option.some.injEq] at h
          subst h
          have h1 := greedyCap_length hgc
          have h2 : (str "BTreeMap<").length ≤ (c :: rest).length :=
            (List.isPrefixOf_iff_prefix.mp hb).length_le
          simp only [str] at h2
          rw [List.length_drop] at h1
          simp only [List.length_cons] at *
          omega
        | none =>
          rw [hgc] at h
          have := ih h
          simp only [List.length_cons]
          omega
      · rw [if_neg hb] at h
        have := ih h
        simp only [List.length_cons]
        omega

theorem splitGo_pieces_length :
    ∀ (rest : Str) (i : Nat) (stack : List Char) (bi : Nat) (types : List Str) (inner : Str)
      (l : List Str),
      (∀ x ∈ types, x.length ≤ inner.length) →
      splitGo inner rest i stack bi types = .ok l → ∀ x ∈ l, x.length ≤ inner.length := by
  intro rest
  induction rest with
  | nil =>
    intro i stack bi types inner l hty h x hx
    simp only [splitGo, Except.ok.injEq] at h
    subst h
    rcases List.mem_append.mp hx with hx | hx
    · exact hty x hx
    · simp only [List.mem_singleton] at hx
      subst hx
      rw [List.length_drop]
      omega
  | cons sym rest ih =>
    intro i stack bi types inner l hty h x hx
    cases ho : openerPos sym with
    | some o1 =>
      simp only [splitGo, ho] at h
      exact ih _ _ _ _ _ _ hty h x hx
    | none =>
      cases hc : closerPos sym with
      | some pos =>
        cases stack with
        | nil =>
          simp only [splitGo, ho, hc] at h
          exact Except.noConfusion h
        | cons o stack' =>
          by_cases hop : openerPos o = some pos
          · simp only [splitGo, ho, hc, if_pos hop] at h
            exact ih _ _ _ _ _ _ hty h x hx
          · simp only [splitGo, ho, hc, if_neg hop] at h
            exact Except.noConfusion h
      | none =>
        by_cases hcm : (sym == ',' && stack.isEmpty && decide (bi + 1 < i)) = true
        · simp only [splitGo, ho, hc, if_pos hcm] at h
          refine ih _ _ _ _ _ _ ?_ h x hx
          intro y hy
          rcases List.mem_append.mp hy with hy | hy
          · exact hty y hy
          · simp only [List.mem_singleton] at hy
            subst hy
            have h1 : ((inner.drop bi).take (i - bi)).length ≤ (inner.drop bi).length := by
              rw [List.length_take]
              exact inf_le_right
            rw [List.length_drop] at h1
            omega
        · simp only [splitGo, ho, hc, if_neg hcm] at h
          exact ih _ _ _ _ _ _ hty h x hx

theorem splitInnerTypes_pieces_length {inner : Str} {l : List Str}
    (h : splitInnerTypes inner = .ok l) : ∀ x ∈ l, x.length ≤ inner.length :=
  splitGo_pieces_length inner 0 [] 0 [] inner l (by simp) h

theorem trimStr_length_le (l : Str) : (trimStr l).length ≤ l.length := by
  unfold trimStr
  have h1 : (l.dropWhile Char.isWhitespace).length ≤ l.length :=
    (List.dropWhile_sublist _).length_le
  have h2 :
      ((l.dropWhile Char.isWhitespace).reverse.dropWhile Char.isWhitespace).length ≤
        (l.dropWhile Char.isWhitespace).reverse.length :=
    (List.dropWhile_sublist _).length_le
  simp only [List.length_reverse] at *
  omega

theorem stripLineComment_length_le (t : Str) : (stripLineComment t).length ≤ t.length := by
  cases hf : findSegIdx (str "//") t with
  | some pos =>
    have hrw : stripLineComment t = trimStr (t.take pos) := by
      unfold stripLineComment
      rw [hf]
    rw [hrw]
    have h1 := trimStr_length_le (t.take pos)
    have h2 : (t.take pos).length ≤ t.length := by
      rw [List.length_take]
      exact inf_le_right
    omega
  | none =>
    have hrw : stripLineComment t = t := by
      unfold stripLineComment
      rw [hf]
    rw [hrw]

theorem stripTrailingComma_length_le (t : Str) : (stripTrailingComma t).length ≤ t.length := by
  unfold stripTrailingComma
  by_cases hl : t.getLast? = some ','
  · rw [if_pos hl, List.length_dropLast]
    omega
  · rw [if_neg hl]

theorem dropTypeUnnecessaryStuff_length_le (t : Str) :
    (dropTypeUnnecessaryStuff t).length ≤ t.length := by
  unfold dropTypeUnnecessaryStuff
  calc (stripTrailingComma (stripLineComment (trimStr t))).length
      ≤ (stripLineComment (trimStr t)).length := stripTrailingComma_length_le _
    _ ≤ (trimStr t).length := stripLineComment_length_le _
    _ ≤ t.length := trimStr_length_le t

/-! ### Recursion unfolding for the type resolver -/

theorem resolveBody_congr {r₁ r₂ : Str → List Str → Bool → Except Err Str} {s : Str}
    {K : List Str} {b : Bool}
    (h : ∀ t K' b', t.length < s.length → r₁ t K' b' = r₂ t K' b') :
    resolveBody r₁ s K b = resolveBody r₂ s K b := by
  unfold resolveBody
  cases hs : scalarResult s b with
  | some r => simp only [hs]
  | none =>
  simp only [hs]
  cases hv : findWrapCapture (str "Vec<") s with
  | some inner =>
    simp only [hv]
    rw [h inner K false (findWrapCapture_length (by decide) hv)]
  | none =>
    simp only [hv]
    cases hoo : findWrapCapture (str "Option<") s with
    | some inner =>
      simp only [hoo]
      rw [h inner K false (findWrapCapture_length (by decide) hoo)]
    | none =>
      simp only [hoo]
      cases hm : findMapCapture s with
      | some inner =>
        simp only [hm]
        have hinner := findMapCapture_length hm
        cases hsp : splitInnerTypes inner with
        | error e => simp only [hsp]
        | ok pieces =>
          simp only [hsp]
          cases hmap : pieces.map dropTypeUnnecessaryStuff with
          | nil => simp only [hmap]
          | cons k t =>
            cases t with
            | nil => simp only [hmap]
            | cons v t2 =>
              cases t2 with
              | cons w t3 => simp only [hmap]
              | nil =>
                simp only [hmap]
                have hk : k.length < s.length := by
                  have hkmem : k ∈ pieces.map dropTypeUnnecessaryStuff := by
                    rw [hmap]; simp
                  obtain ⟨piece, hpmem, hpe⟩ := List.mem_map.mp hkmem
                  have hl1 := splitInnerTypes_pieces_length hsp piece hpmem
                  have hl2 := dropTypeUnnecessaryStuff_length_le piece
                  rw [← hpe] at *
                  omega
                have hv2 : v.length < s.length := by
                  have hvmem : v ∈ pieces.map dropTypeUnnecessaryStuff := by
                    rw [hmap]; simp
                  obtain ⟨piece, hpmem, hpe⟩ := List.mem_map.mp hvmem
                  have hl1 := splitInnerTypes_pieces_length hsp piece hpmem
                  have hl2 := dropTypeUnnecessaryStuff_length_le piece
                  rw [← hpe] at *
                  omega
                rw [h k K true hk, h v K false hv2]
      | none => rfl

theorem rustTypeToProtobufF_eq :
    ∀ (n : Nat) (s : Str), s.length ≤ n → ∀ (f : Nat) (K : List Str) (b : Bool), s.length < f →
      rustTypeToProtobufF f s K b = rust_type_to_protobuf s K b := by
  intro n
  induction n with
  | zero =>
    intro s hs f K b hf
    obtain ⟨f', rfl⟩ : ∃ f', f = f' + 1 := ⟨f - 1, by omega⟩
    show resolveBody (rustTypeToProtobufF f') s K b =
      resolveBody (rustTypeToProtobufF s.length) s K b
    exact resolveBody_congr (fun t K' b' ht => absurd ht (by omega))
  | succ n ih =>
    intro s hs f K b hf
    obtain ⟨f', rfl⟩ : ∃ f', f = f' + 1 := ⟨f - 1, by omega⟩
    show resolveBody (rustTypeToProtobufF f') s K b =
      resolveBody (rustTypeToProtobufF s.length) s K b
    refine resolveBody_congr (fun t K' b' ht => ?_)
    rw [ih t (by omega) f' K' b' (by omega), ih t (by omega) s.length K' b' ht]

/-- The resolver satisfies its intended recursion equation: the fuel in the
definition is invisible. -/
theorem rust_type_to_protobuf_eq (s : Str) (K : List Str) (b : Bool) :
    rust_type_to_protobuf s K b = resolveBody rust_type_to_protobuf s K b := by
  show resolveBody (rustTypeToProtobufF s.length) s K b = _
  exact resolveBody_congr (fun t K' b' ht =>
    rustTypeToProtobufF_eq t.length t le_rfl s.length K' b' ht)

/-! ### The wrapper branches of the resolver -/

theorem cons_ne_of_head {c d : Char} {rest l : Str} (hl : l.head? = some d) (hcd : c ≠ d) :
    c :: rest ≠ l := by
  intro h'
  rw [← h'] at hl
  simp only [List.head?_cons, Option.some.injEq] at hl
  exact hcd hl

theorem scalarResult_none_head {c : Char} (rest : Str) (b : Bool)
    (h1 : c ≠ 'f') (h2 : c ≠ 'i') (h3 : c ≠ 'u') (h4 : c ≠ 'b') (h5 : c ≠ 'S')
    (h6 : c :: rest ≠ str "Vec<u8>") :
    scalarResult (c :: rest) b = none := by
  unfold scalarResult
  rw [if_neg (cons_ne_of_head (l := str "f64") (by decide) h1),
    if_neg (fun h' => by
      rcases h' with h' | h' | h' <;> exact cons_ne_of_head (by decide) h1 h'),
    if_neg (cons_ne_of_head (l := str "i64") (by decide) h2),
    if_neg (fun h' => by
      rcases h' with h' | h' | h' <;> exact cons_ne_of_head (by decide) h2 h'),
    if_neg (cons_ne_of_head (l := str "u64") (by decide) h3),
    if_neg (fun h' => by
      rcases h' with h' | h' | h' <;> exact cons_ne_of_head (by decide) h3 h'),
    if_neg (cons_ne_of_head (l := str "bool") (by decide) h4),
    if_neg (cons_ne_of_head (l := str "String") (by decide) h5),
    if_neg h6]

theorem findWrapCapture_append_some {pat rest p : Str} (hpat : pat ≠ [])
    (hg : greedyCap rest = some p) : findWrapCapture pat (pat ++ rest) = some p := by
  cases pat with
  | nil => exact absurd rfl hpat
  | cons c pat' =>
    rw [List.cons_append]
    simp only [findWrapCapture]
    have hpre : (c :: pat').isPrefixOf (c :: (pat' ++ rest)) = true := by
      rw [List.isPrefixOf_iff_prefix]
      exact ⟨rest, rfl⟩
    rw [if_pos hpre]
    have hdrop : (c :: (pat' ++ rest)).drop (c :: pat').length = rest := by
      simp only [List.length_cons, List.drop_succ_cons]
      exact List.drop_left pat' rest
    rw [hdrop, hg]

theorem findMapCapture_hashmap (rest p : Str) (hg : greedyCap rest = some p) :
    findMapCapture (str "HashMap<" ++ rest) = some p := by
  have hcons : str "HashMap<" ++ rest = 'H' :: (str "ashMap<" ++ rest) := rfl
  rw [hcons]
  simp only [findMapCapture]
  have hpre : (str "HashMap<").isPrefixOf ('H' :: (str "ashMap<" ++ rest)) = true := by
    rw [List.isPrefixOf_iff_prefix]
    exact ⟨rest, rfl⟩
  rw [if_pos hpre, show ('H' :: (str "ashMap<" ++ rest)).drop 8 = rest from rfl, hg]

theorem findMapCapture_btreemap (rest p : Str) (hg : greedyCap rest = some p) :
    findMapCapture (str "BTreeMap<" ++ rest) = some p := by
  have hcons : str "BTreeMap<" ++ rest = 'B' :: (str "TreeMap<" ++ rest) := rfl
  rw [hcons]
  simp only [findMapCapture]
  have hpre1 : (str "HashMap<").isPrefixOf ('B' :: (str "TreeMap<" ++ rest)) = false := rfl
  have hpre2 : (str "BTreeMap<").isPrefixOf ('B' :: (str "TreeMap<" ++ rest)) = true := by
    rw [List.isPrefixOf_iff_prefix]
    exact ⟨rest, rfl⟩
  rw [if_neg (by simp [hpre1]), if_pos hpre2,
    show ('B' :: (str "TreeMap<" ++ rest)).drop 9 = rest from rfl, hg]

theorem resolve_vec_wrap (T : Str) (K : List Str) (hT : T.all isTypeChar = true)
    (hne : str "Vec<" ++ T ++ str ">" ≠ str "Vec<u8>") :
    rust_type_to_protobuf (str "Vec<" ++ T ++ str ">") K false =
      match rust_type_to_protobuf T K false with
      | .error e => .error e
      | .ok innerType =>
        if (str "repeated").isPrefixOf innerType then .error doubleRepeatedErr
        else .ok (str "repeated " ++ innerType) := by
  rw [rust_type_to_protobuf_eq]
  unfold resolveBody
  have hcons : str "Vec<" ++ T ++ str ">" = 'V' :: (str "ec<" ++ T ++ str ">") := rfl
  have hscal : scalarResult (str "Vec<" ++ T ++ str ">") false = none := by
    rw [hcons]
    exact scalarResult_none_head _ false (by decide) (by decide) (by decide) (by decide)
      (by decide) (by rw [← hcons]; exact hne)
  have hvec : findWrapCapture (str "Vec<") (str "Vec<" ++ T ++ str ">") = some T := by
    rw [List.append_assoc]
    exact findWrapCapture_append_some (by decide) (greedyCap_append hT)
  simp only [hscal, hvec]

theorem resolve_option_wrap (T : Str) (K : List Str) (hT : T.all isTypeChar = true)
    (hv : segOccurs (str "Vec<") (str "Option<" ++ T ++ str ">") = false) :
    rust_type_to_protobuf (str "Option<" ++ T ++ str ">") K false =
      match rust_type_to_protobuf T K false with
      | .error e => .error e
      | .ok innerType =>
        if (str "optional").isPrefixOf innerType then .error doubleOptionalErr
        else .ok (str "optional " ++ innerType) := by
  rw [rust_type_to_protobuf_eq]
  unfold resolveBody
  have hcons : str "Option<" ++ T ++ str ">" = 'O' :: (str "ption<" ++ T ++ str ">") := rfl
  have hscal : scalarResult (str "Option<" ++ T ++ str ">") false = none := by
    rw [hcons]
    exact scalarResult_none_head _ false (by decide) (by decide) (by decide) (by decide)
      (by decide) (cons_ne_of_head (d := 'V') (by decide) (by decide))
  have hvec : findWrapCapture (str "Vec<") (str "Option<" ++ T ++ str ">") = none :=
    findWrapCapture_of_not_occurs hv
  have hopt : findWrapCapture (str "Option<") (str "Option<" ++ T ++ str ">") = some T := by
    rw [List.append_assoc]
    exact findWrapCapture_append_some (by decide) (greedyCap_append hT)
  simp only [hscal, hvec, hopt]

theorem resolve_hashmap_wrap (inner : Str) (K : List Str) (hin : inner.all isTypeChar = true)
    (hv : segOccurs (str "Vec<") (str "HashMap<" ++ inner ++ str ">") = false)
    (ho : segOccurs (str "Option<") (str "HashMap<" ++ inner ++ str ">") = false) :
    rust_type_to_protobuf (str "HashMap<" ++ inner ++ str ">") K false = mapBranch inner K := by
  rw [rust_type_to_protobuf_eq]
  unfold resolveBody mapBranch
  have hcons : str "HashMap<" ++ inner ++ str ">" = 'H' :: (str "ashMap<" ++ inner ++ str ">") := rfl
  have hscal : scalarResult (str "HashMap<" ++ inner ++ str ">") false = none := by
    rw [hcons]
    exact scalarResult_none_head _ false (by decide) (by decide) (by decide) (by decide)
      (by decide) (cons_ne_of_head (d := 'V') (by decide) (by decide))
  have hvec : findWrapCapture (str "Vec<") (str "HashMap<" ++ inner ++ str ">") = none :=
    findWrapCapture_of_not_occurs hv
  have hopt : findWrapCapture (str "Option<") (str "HashMap<" ++ inner ++ str ">") = none :=
    findWrapCapture_of_not_occurs ho
  have hmap : findMapCapture (str "HashMap<" ++ inner ++ str ">") = some inner := by
    rw [List.append_assoc]
    exact findMapCapture_hashmap _ _ (greedyCap_append hin)
  simp only [hscal, hvec, hopt, hmap]

theorem resolve_btreemap_wrap (inner : Str) (K : List Str) (hin : inner.all isTypeChar = true)
    (hv : segOccurs (str "Vec<") (str "BTreeMap<" ++ inner ++ str ">") = false)
    (ho : segOccurs (str "Option<") (str "BTreeMap<" ++ inner ++ str ">") = false) :
    rust_type_to_protobuf (str "BTreeMap<" ++ inner ++ str ">") K false = mapBranch inner K := by
  rw [rust_type_to_protobuf_eq]
  unfold resolveBody mapBranch
  have hcons : str "BTreeMap<" ++ inner ++ str ">" = 'B' :: (str "TreeMap<" ++ inner ++ str ">") := rfl
  have hscal : scalarResult (str "BTreeMap<" ++ inner ++ str ">") false = none := by
    rw [hcons]
    exact scalarResult_none_head _ false (by decide) (by decide) (by decide) (by decide)
      (by decide) (cons_ne_of_head (d := 'V') (by decide) (by decide))
  have hvec : findWrapCapture (str "Vec<") (str "BTreeMap<" ++ inner ++ str ">") = none :=
    findWrapCapture_of_not_occurs hv
  have hopt : findWrapCapture (str "Option<") (str "BTreeMap<" ++ inner ++ str ">") = none :=
    findWrapCapture_of_not_occurs ho
  have hmap : findMapCapture (str "BTreeMap<" ++ inner ++ str ">") = some inner := by
    rw [List.append_assoc]
    exact findMapCapture_btreemap _ _ (greedyCap_append hin)
  simp only [hscal, hvec, hopt, hmap]

/-! ### Claims C1, C3, C4: the type resolver -/

/-- C1, counterexample: the claim "resolving `Vec<T>` returns `repeated ` ++
resolve(T), and `Vec<Vec<T>>` always fails double-wrapped" is false at
`T = u8`: `u8` resolves to `uint32`, yet `Vec<u8>` is the special
byte-sequence scalar and resolves to `bytes` (not `repeated uint32`), and
`Vec<Vec<u8>>` resolves to `repeated bytes` instead of failing. -/
theorem claim_C1_cex :
    rust_type_to_protobuf (str "u8") [] false = .ok (str "uint32")
    ∧ rust_type_to_protobuf (str "Vec<u8>") [] false = .ok (str "bytes")
    ∧ str "bytes" ≠ str "repeated " ++ str "uint32"
    ∧ rust_type_to_protobuf (str "Vec<Vec<u8>>") [] false = .ok (str "repeated bytes") := by
  exact ⟨by decide, by decide, by decide, by decide⟩

/-- C1 (amended): for a type expression `T` over the regex character class,
if `T` resolves to `r` then `Option<T>` (provided `Vec<` occurs nowhere in
it, since the `Vec` branch is tried first) resolves to `optional ` ++ `r`
unless `r` itself begins with `optional`, in which case the double-wrapped
error is raised (never flattened); and `Vec<T>` (provided it is not the
byte-sequence scalar `Vec<u8>`) resolves to `repeated ` ++ `r` unless `r`
begins with `repeated`, in which case the double-wrapped error is raised. -/
theorem claim_C1 :
    (∀ (T : Str) (K : List Str) (r : Str),
       T.all isTypeChar = true →
       segOccurs (str "Vec<") (str "Option<" ++ T ++ str ">") = false →
       rust_type_to_protobuf T K false = .ok r →
       rust_type_to_protobuf (str "Option<" ++ T ++ str ">") K false =
         (if (str "optional").isPrefixOf r then .error doubleOptionalErr
          else .ok (str "optional " ++ r)))
    ∧ (∀ (T : Str) (K : List Str) (r : Str),
       T.all isTypeChar = true →
       str "Vec<" ++ T ++ str ">" ≠ str "Vec<u8>" →
       rust_type_to_protobuf T K false = .ok r →
       rust_type_to_protobuf (str "Vec<" ++ T ++ str ">") K false =
         (if (str "repeated").isPrefixOf r then .error doubleRepeatedErr
          else .ok (str "repeated " ++ r))) := by
  constructor
  · intro T K r hT hv hres
    rw [resolve_option_wrap T K hT hv, hres]
  · intro T K r hT hne hres
    rw [resolve_vec_wrap T K hT hne, hres]

/-- C1, witness: the amended claim applied at `T = bool` with an empty
known-types set. -/
theorem claim_C1_witness :
    rust_type_to_protobuf (str "Option<bool>") [] false = .ok (str "optional bool")
    ∧ rust_type_to_protobuf (str "Vec<bool>") [] false = .ok (str "repeated bool") := by
  constructor
  · have h := claim_C1.1 (str "bool") [] (str "bool") (by decide) (by decide) (by decide)
    rw [show str "Option<bool>" = str "Option<" ++ str "bool" ++ str ">" from rfl, h]
    decide
  · have h := claim_C1.2 (str "bool") [] (str "bool") (by decide) (by decide) (by decide)
    rw [show str "Vec<bool>" = str "Vec<" ++ str "bool" ++ str ">" from rfl, h]
    decide

/-- C3: every entry of the fixed scalar table resolves to its mapped
primitive for any known-types set; with `is_map_key = true` exactly the
floating-point entries and the byte-sequence entry fail with the
unsupported-map-key error (an error distinct from the unknown-type error),
while the integer, bool and string entries still succeed. -/
theorem claim_C3 :
    ∀ (K : List Str),
      (rust_type_to_protobuf (str "f64") K false = .ok (str "double")
        ∧ rust_type_to_protobuf (str "f32") K false = .ok (str "float")
        ∧ rust_type_to_protobuf (str "f16") K false = .ok (str "float")
        ∧ rust_type_to_protobuf (str "f8") K false = .ok (str "float")
        ∧ rust_type_to_protobuf (str "i64") K false = .ok (str "int64")
        ∧ rust_type_to_protobuf (str "i32") K false = .ok (str "int32")
        ∧ rust_type_to_protobuf (str "i16") K false = .ok (str "int32")
        ∧ rust_type_to_protobuf (str "i8") K false = .ok (str "int32")
        ∧ rust_type_to_protobuf (str "u64") K false = .ok (str "uint64")
        ∧ rust_type_to_protobuf (str "u32") K false = .ok (str "uint32")
        ∧ rust_type_to_protobuf (str "u16") K false = .ok (str "uint32")
        ∧ rust_type_to_protobuf (str "u8") K false = .ok (str "uint32")
        ∧ rust_type_to_protobuf (str "bool") K false = .ok (str "bool")
        ∧ rust_type_to_protobuf (str "String") K false = .ok (str "string")
        ∧ rust_type_to_protobuf (str "Vec<u8>") K false = .ok (str "bytes"))
      ∧ (rust_type_to_protobuf (str "f64") K true = .error (unsupportedKeyErr (str "f64"))
        ∧ rust_type_to_protobuf (str "f32") K true = .error (unsupportedKeyErr (str "f32"))
        ∧ rust_type_to_protobuf (str "f16") K true = .error (unsupportedKeyErr (str "f16"))
        ∧ rust_type_to_protobuf (str "f8") K true = .error (unsupportedKeyErr (str "f8"))
        ∧ rust_type_to_protobuf (str "Vec<u8>") K true = .error (unsupportedKeyErr (str "Vec<u8>")))
      ∧ (rust_type_to_protobuf (str "i64") K true = .ok (str "int64")
        ∧ rust_type_to_protobuf (str "i32") K true = .ok (str "int32")
        ∧ rust_type_to_protobuf (str "i16") K true = .ok (str "int32")
        ∧ rust_type_to_protobuf (str "i8") K true = .ok (str "int32")
        ∧ rust_type_to_protobuf (str "u64") K true = .ok (str "uint64")
        ∧ rust_type_to_protobuf (str "u32") K true = .ok (str "uint32")
        ∧ rust_type_to_protobuf (str "u16") K true = .ok (str "uint32")
        ∧ rust_type_to_protobuf (str "u8") K true = .ok (str "uint32")
        ∧ rust_type_to_protobuf (str "bool") K true = .ok (str "bool")
        ∧ rust_type_to_protobuf (str "String") K true = .ok (str "string"))
      ∧ unsupportedKeyErr (str "f64") ≠ unknownTypeErr (str "f64") := by
  intro K
  exact ⟨⟨rfl, rfl, rfl, rfl, rfl, rfl, rfl, rfl, rfl, rfl, rfl, rfl, rfl, rfl, rfl⟩,
    ⟨rfl, rfl, rfl, rfl, rfl⟩,
    ⟨rfl, rfl, rfl, rfl, rfl, rfl, rfl, rfl, rfl, rfl⟩,
    by decide⟩

/-- C4, counterexample: the claim "for every map wrapper expression the
resolver splits the inner text and resolves key and value" is false for
`HashMap<String, Vec<u32>>`: the `Vec<…>` regex is consulted first and
captures `u32>`, so resolution fails with the unknown-type error instead of
producing `map<string, repeated uint32>`, although `Vec<u32>` itself resolves
to `repeated uint32`. -/
theorem claim_C4_cex :
    rust_type_to_protobuf (str "HashMap<String, Vec<u32>>") [] false =
        .error (unknownTypeErr (str "u32>"))
    ∧ rust_type_to_protobuf (str "Vec<u32>") [] false = .ok (str "repeated uint32") := by
  exact ⟨by decide, by decide⟩

/-- C4 (amended): for every map wrapper expression `HashMap<inner>` or
`BTreeMap<inner>` whose inner text is drawn from the regex character class
and in which neither `Vec<` nor `Option<` occurs, the resolver splits `inner`
with the delimiter-respecting splitter, fails with the wrong-arity error
unless exactly two (normalized) arguments result, resolves the first with
`is_map_key = true` and the second with `is_map_key = false`, and emits
`map<K, V>`; in particular `HashMap<String, u32>` resolves to
`map<string, uint32>`, `HashMap<f64, String>` fails with the
unsupported-map-key error, and wrong arities fail with the arity error. -/
theorem claim_C4 :
    (∀ (inner : Str) (K : List Str),
       inner.all isTypeChar = true →
       segOccurs (str "Vec<") (str "HashMap<" ++ inner ++ str ">") = false →
       segOccurs (str "Option<") (str "HashMap<" ++ inner ++ str ">") = false →
       rust_type_to_protobuf (str "HashMap<" ++ inner ++ str ">") K false = mapBranch inner K)
    ∧ (∀ (inner : Str) (K : List Str),
       inner.all isTypeChar = true →
       segOccurs (str "Vec<") (str "BTreeMap<" ++ inner ++ str ">") = false →
       segOccurs (str "Option<") (str "BTreeMap<" ++ inner ++ str ">") = false →
       rust_type_to_protobuf (str "BTreeMap<" ++ inner ++ str ">") K false = mapBranch inner K)
    ∧ rust_type_to_protobuf (str "HashMap<String, u32>") [] false = .ok (str "map<string, uint32>")
    ∧ rust_type_to_protobuf (str "HashMap<f64, String>") [] false =
        .error (unsupportedKeyErr (str "f64"))
    ∧ rust_type_to_protobuf (str "HashMap<String, u32, bool>") [] false = .error mapArityErr
    ∧ rust_type_to_protobuf (str "HashMap<String>") [] false = .error mapArityErr := by
  exact ⟨resolve_hashmap_wrap, resolve_btreemap_wrap, by decide, by decide, by decide, by decide⟩

/-- C4, witness: the amended claim applied at `inner = "String, u32"`. -/
theorem claim_C4_witness :
    rust_type_to_protobuf (str "HashMap<" ++ str "String, u32" ++ str ">") [] false =
      mapBranch (str "String, u32") [] :=
  claim_C4.1 (str "String, u32") [] (by decide) (by decide) (by decide)

/-! ### Claims C2, C10: the argument splitter -/

theorem splitGo_eq_claimSplitGo :
    ∀ (rest : Str) (inner : Str) (i : Nat) (stack : List Char) (bi : Nat) (types : List Str),
      inner.drop i = rest → bi ≤ i → i ≤ inner.length →
      splitGo inner rest i stack bi types =
        claimSplitGo rest stack ((inner.drop bi).take (i - bi)) types := by
  intro rest
  induction rest with
  | nil =>
    intro inner i stack bi types hdrop hbi hi
    have hlen : inner.length ≤ i := by
      have h := congrArg List.length hdrop
      rw [List.length_drop] at h
      simp only [List.length_nil] at h
      omega
    have hcur : (inner.drop bi).take (i - bi) = inner.drop bi := by
      apply List.take_of_length_le
      rw [List.length_drop]
      omega
    simp only [splitGo, claimSplitGo, hcur]
  | cons sym rest ih =>
    intro inner i stack bi types hdrop hbi hi
    have hi' : i < inner.length := by
      have h := congrArg List.length hdrop
      rw [List.length_drop] at h
      simp only [List.length_cons] at h
      omega
    have hdrop' : inner.drop (i + 1) = rest := by
      have h2 : (inner.drop i).drop 1 = inner.drop (i + 1) := List.drop_drop 1 i inner
      rw [← h2, hdrop]
      rfl
    have hget : inner[i]? = some sym := by
      have h0 : (inner.drop i)[0]? = some sym := by rw [hdrop]; simp
      rw [List.getElem?_drop] at h0
      simpa using h0
    have hcurext : (inner.drop bi).take (i + 1 - bi) = (inner.drop bi).take (i - bi) ++ [sym] := by
      have h1 : i + 1 - bi = (i - bi) + 1 := by omega
      rw [h1, List.take_succ]
      congr 1
      rw [List.getElem?_drop, show bi + (i - bi) = i from by omega, hget]
      rfl
    have hcurlen : ((inner.drop bi).take (i - bi)).length = i - bi := by
      rw [List.length_take, List.length_drop]
      omega
    cases ho : openerPos sym with
    | some o1 =>
      simp only [splitGo, claimSplitGo, ho]
      rw [ih inner (i + 1) (sym :: stack) bi types hdrop' (by omega) (by omega), hcurext]
    | none =>
      cases hcsym : closerPos sym with
      | some pos =>
        cases stack with
        | nil => simp only [splitGo, claimSplitGo, ho, hcsym]
        | cons o stack' =>
          simp only [splitGo, claimSplitGo, ho, hcsym]
          by_cases hop : openerPos o = some pos
          · rw [if_pos hop, if_pos hop,
              ih inner (i + 1) stack' bi types hdrop' (by omega) (by omega), hcurext]
          · rw [if_neg hop, if_neg hop]
      | none =>
        simp only [splitGo, claimSplitGo, ho, hcsym]
        by_cases hcm : (sym == ',' && stack.isEmpty && decide (bi + 1 < i)) = true
        · have hcm' : (sym == ',' && stack.isEmpty &&
              decide (2 ≤ ((inner.drop bi).take (i - bi)).length)) = true := by
            rw [hcurlen]
            simp only [Bool.and_eq_true, decide_eq_true_eq] at hcm ⊢
            exact ⟨hcm.1, by omega⟩
          rw [if_pos hcm, if_pos hcm',
            ih inner (i + 1) stack (i + 1) (types ++ [(inner.drop bi).take (i - bi)]) hdrop'
              (by omega) (by omega)]
          rw [Nat.sub_self, List.take_zero]
        · have hcm' : ¬ (sym == ',' && stack.isEmpty &&
              decide (2 ≤ ((inner.drop bi).take (i - bi)).length)) = true := by
            rw [hcurlen]
            simp only [Bool.and_eq_true, decide_eq_true_eq] at hcm ⊢
            intro h'
            exact hcm ⟨h'.1, by omega⟩
          rw [if_neg hcm, if_neg hcm',
            ih inner (i + 1) stack bi types hdrop' (by omega) (by omega), hcurext]

/-- C2, counterexample: the raw claim "every top-level comma is a split
point" fails on `"a,b"`: the comma sits at index 1, the guard
`begin_index + 1 < i` is false, and the input comes back as a single piece. -/
theorem claim_C2_cex :
    splitInnerTypes (str "a,b") = .ok [str "a,b"]
    ∧ [str "a,b"] ≠ [str "a", str "b"] := by
  exact ⟨by decide, by decide⟩

/-- C2 (amended): the splitter splits exactly at the top-level commas (commas
not nested inside angle brackets, parentheses or square brackets) whose
current piece already holds at least two characters — a top-level comma
arriving when the piece built so far is shorter than two characters does not
split; pieces are returned untrimmed in left-to-right order.  In particular
splitting `"A<B,C>, D"` yields exactly `["A<B,C>", " D"]`. -/
theorem claim_C2 :
    (∀ inner : Str, splitInnerTypes inner = claimSplit inner)
    ∧ splitInnerTypes (str "A<B,C>, D") = .ok [str "A<B,C>", str " D"] := by
  constructor
  · intro inner
    unfold splitInnerTypes claimSplit
    have h := splitGo_eq_claimSplitGo inner inner 0 [] 0 [] rfl (le_refl 0) (Nat.zero_le _)
    simpa using h
  · decide

theorem splitGo_ok_iff :
    ∀ (rest : Str) (inner : Str) (i : Nat) (stack : List Char) (bi : Nat) (types : List Str),
      delimScanOk rest stack = true ↔ ∃ l, splitGo inner rest i stack bi types = .ok l := by
  intro rest
  induction rest with
  | nil =>
    intro inner i stack bi types
    constructor
    · intro _
      exact ⟨types ++ [inner.drop bi], rfl⟩
    · intro _
      rfl
  | cons sym rest ih =>
    intro inner i stack bi types
    cases ho : openerPos sym with
    | some o1 =>
      simp only [delimScanOk, splitGo, ho]
      exact ih inner (i + 1) (sym :: stack) bi types
    | none =>
      cases hcsym : closerPos sym with
      | some pos =>
        cases stack with
        | nil =>
          simp only [delimScanOk, splitGo, ho, hcsym]
          constructor
          · intro h
            exact absurd h (by simp)
          · rintro ⟨l, h⟩
            exact Except.noConfusion h
        | cons o stack' =>
          simp only [delimScanOk, splitGo, ho, hcsym]
          by_cases hop : openerPos o = some pos
          · have hbeq : (openerPos o == some pos) = true := by simp [hop]
            simp only [hbeq, Bool.true_and, if_pos hop]
            exact ih inner (i + 1) stack' bi types
          · have hbeq : (openerPos o == some pos) = false := by simp [hop]
            simp only [hbeq, Bool.false_and, if_neg hop]
            constructor
            · intro h
              exact absurd h (by simp)
            · rintro ⟨l, h⟩
              exact Except.noConfusion h
      | none =>
        simp only [delimScanOk, splitGo, ho, hcsym]
        by_cases hcm : (sym == ',' && stack.isEmpty && decide (bi + 1 < i)) = true
        · rw [if_pos hcm]
          exact ih inner (i + 1) stack (i + 1) (types ++ [(inner.drop bi).take (i - bi)])
        · rw [if_neg hcm]
          exact ih inner (i + 1) stack bi types

/-- C10: the splitter returns `Ok` exactly when the left-to-right scan never
meets a closing delimiter with an empty stack or a differently-typed stack
top; unmatched opening delimiters left on the stack at the end never cause an
error — in particular `"a<b"` splits successfully. -/
theorem claim_C10 :
    (∀ inner : Str, delimScanOk inner [] = true ↔ ∃ l, splitInnerTypes inner = .ok l)
    ∧ splitInnerTypes (str "a<b") = .ok [str "a<b"]
    ∧ delimScanOk (str "a<b") [] = true := by
  refine ⟨fun inner => ?_, by decide, by decide⟩
  unfold splitInnerTypes
  exact splitGo_ok_iff inner inner 0 [] 0 []

/-! ### Claims C5, C7: field numbering and enum variants -/

theorem structLineField_good (known : List Str) (c : Int) :
    structLineField known c (str "x: bool") =
      .ok (some ⟨str "x", str "bool", str "bool", c⟩) := rfl

theorem structLineField_num {known : List Str} {c : Int} {line : Str} {nf : ProtobufField}
    (h : structLineField known c line = .ok (some nf)) : nf.field_num = c := by
  simp only [structLineField] at h
  rcases hsp : splitOnChar ':' line with _ | ⟨p0, _ | ⟨p1, ps⟩⟩ <;> simp only [hsp] at h
  · simp at h
  · cases hr : rust_type_to_protobuf (dropTypeUnnecessaryStuff p0) known false with
    | error e => simp only [hr] at h; exact Except.noConfusion h
    | ok p3 =>
      simp only [hr, Except.ok.injEq, Option.some.injEq] at h
      rw [← h]
  · cases hr : rust_type_to_protobuf
      (dropTypeUnnecessaryStuff (List.intercalate [':'] (p1 :: ps))) known false with
    | error e => simp only [hr] at h; exact Except.noConfusion h
    | ok p3 =>
      simp only [hr, Except.ok.injEq, Option.some.injEq] at h
      rw [← h]

theorem parseStructFieldsGo_band :
    ∀ (lines : List Str) (known : List Str) (c : Int) (acc res : List ProtobufField),
      1 ≤ c → (c < 19000 ∨ 20000 ≤ c) →
      (∀ f ∈ acc, f.field_num < 19000 ∨ 20000 ≤ f.field_num) →
      parseStructFieldsGo known lines c acc = .ok res →
      ∀ f ∈ res, f.field_num < 19000 ∨ 20000 ≤ f.field_num := by
  intro lines
  induction lines with
  | nil =>
    intro known c acc res _ _ hacc h f hf
    simp only [parseStructFieldsGo, Except.ok.injEq] at h
    subst h
    exact hacc f hf
  | cons line rest ih =>
    intro known c acc res h1 h2 hacc h f hf
    simp only [parseStructFieldsGo] at h
    cases hsf : structLineField known c line with
    | error e =>
      simp only [hsf] at h
      exact Except.noConfusion h
    | ok newField =>
      simp only [hsf] at h
      have hacc' : ∀ g ∈ (match newField with | some nf => acc ++ [nf] | none => acc),
          g.field_num < 19000 ∨ 20000 ≤ g.field_num := by
        cases newField with
        | none => exact hacc
        | some nf =>
          intro g hg
          rcases List.mem_append.mp hg with hg | hg
          · exact hacc g hg
          · simp only [List.mem_singleton] at hg
            subst hg
            have hnum : g.field_num = c := structLineField_num hsf
            omega
      by_cases h19 : c + 1 = 19000
      · rw [if_pos h19] at h
        exact ih known 20000 _ res (by omega) (by omega) hacc' h f hf
      · rw [if_neg h19] at h
        by_cases hbig : c + 1 = 536870912
        · rw [if_pos hbig] at h
          exact Except.noConfusion h
        · rw [if_neg hbig] at h
          exact ih known (c + 1) _ res (by omega) (by omega) hacc' h f hf

theorem parseStructFieldsGo_replicate :
    ∀ (n : Nat) (c : Int) (acc : List ProtobufField) (known : List Str),
      1 ≤ c →
      ((c < 19000 ∧ c + n + 1000 ≤ 536870911) ∨ (20000 ≤ c ∧ c + n ≤ 536870911)) →
      parseStructFieldsGo known (List.replicate n (str "x: bool")) c acc =
        .ok (acc ++ (List.range n).map
          (fun i => ⟨str "x", str "bool", str "bool", cntrStep^[i] c⟩)) := by
  intro n
  induction n with
  | zero =>
    intro c acc known _ _
    simp [parseStructFieldsGo]
  | succ n ih =>
    intro c acc known h1 h2
    rw [List.replicate_succ]
    simp only [parseStructFieldsGo, structLineField_good]
    have hrhs : (List.range (n + 1)).map
        (fun i => (⟨str "x", str "bool", str "bool", cntrStep^[i] c⟩ : ProtobufField)) =
        (⟨str "x", str "bool", str "bool", c⟩ : ProtobufField) ::
          (List.range n).map
            (fun i => ⟨str "x", str "bool", str "bool", cntrStep^[i] (cntrStep c)⟩) := by
      rw [List.range_succ_eq_map, List.map_cons, List.map_map]
      rfl
    by_cases h19 : c + 1 = 19000
    · rw [if_pos h19]
      have hstep : cntrStep c = 20000 := by
        unfold cntrStep
        rw [if_pos h19]
      rw [ih 20000 (acc ++ [(⟨str "x", str "bool", str "bool", c⟩ : ProtobufField)]) known
        (by omega) (Or.inr ⟨by omega, by omega⟩)]
      rw [hrhs, hstep]
      simp [List.append_assoc]
    · rw [if_neg h19]
      have hbig : ¬ c + 1 = 536870912 := by
        rcases h2 with ⟨a, b⟩ | ⟨a, b⟩ <;> omega
      rw [if_neg hbig]
      have hstep : cntrStep c = c + 1 := by
        unfold cntrStep
        rw [if_neg h19]
      have hband : ((c + 1 < 19000 ∧ (c + 1) + n + 1000 ≤ 536870911) ∨
          (20000 ≤ c + 1 ∧ (c + 1) + n ≤ 536870911)) := by
        rcases h2 with ⟨a, b⟩ | ⟨a, b⟩
        · exact Or.inl ⟨by omega, by omega⟩
        · exact Or.inr ⟨by omega, by omega⟩
      rw [ih (c + 1) (acc ++ [(⟨str "x", str "bool", str "bool", c⟩ : ProtobufField)]) known
        (by omega) hband]
      rw [hrhs, hstep]
      simp [List.append_assoc]

theorem cntrStep_iterate_one :
    ∀ (i : Nat), cntrStep^[i] 1 = if i < 18999 then (i : Int) + 1 else (i : Int) + 1001 := by
  intro i
  induction i with
  | zero =>
    rw [Function.iterate_zero_apply, if_pos (by omega)]
    simp
  | succ i ih =>
    rw [Function.iterate_succ_apply', ih]
    by_cases hi : i < 18999
    · rw [if_pos hi]
      unfold cntrStep
      by_cases h19 : (i : Int) + 1 + 1 = 19000
      · rw [if_pos h19]
        rw [if_neg (by omega)]
        omega
      · rw [if_neg h19]
        rw [if_pos (by omega)]
        push_cast
        ring
    · rw [if_neg hi]
      unfold cntrStep
      rw [if_neg (by omega)]
      rw [if_neg (by omega)]
      push_cast
      ring

theorem parseStructFieldsGo_threshold :
    ∀ (known : List Str) (line : Str) (rest : List Str) (acc : List ProtobufField)
      (nf : Option ProtobufField),
      structLineField known 536870911 line = .ok nf →
      parseStructFieldsGo known (line :: rest) 536870911 acc = .error tooBigErr := by
  intro known line rest acc nf h
  simp only [parseStructFieldsGo, h]
  rw [if_neg (by omega), if_pos (by omega)]

/-- C5: field numbers come from a counter starting at 1 and incremented once
per line; the reserved band 19000–19999 is never assigned (the counter jumps
from 19000 to 20000), so a struct of 18999 identical resolvable lines gets
numbers 1..18999 and line 19000 gets number 20000 — stated via the closed
form of the counter; and as soon as the counter reaches 536870912 (i.e. a
line is processed with the counter at 536870911) the whole struct is rejected
with the too-large error, yielding no fields at all. -/
theorem claim_C5 :
    (∀ (known : List Str) (lines : List Str) (fields : List ProtobufField),
       parse_struct_fields known lines = .ok fields →
       ∀ f ∈ fields, f.field_num < 19000 ∨ 20000 ≤ f.field_num)
    ∧ (∀ (known : List Str) (n : Nat), n ≤ 536869910 →
       parse_struct_fields known (List.replicate n (str "x: bool")) =
         .ok ((List.range n).map fun (i : Nat) =>
           ⟨str "x", str "bool", str "bool",
             if i < 18999 then (i : Int) + 1 else (i : Int) + 1001⟩))
    ∧ (∀ (known : List Str) (line : Str) (rest : List Str) (acc : List ProtobufField)
         (nf : Option ProtobufField),
       structLineField known 536870911 line = .ok nf →
       parseStructFieldsGo known (line :: rest) 536870911 acc = .error tooBigErr) := by
  refine ⟨?_, ?_, parseStructFieldsGo_threshold⟩
  · intro known lines fields h
    exact parseStructFieldsGo_band lines known 1 [] fields (by omega) (by omega) (by simp) h
  · intro known n hn
    unfold parse_struct_fields
    rw [parseStructFieldsGo_replicate n 1 [] known (by omega) (Or.inl ⟨by omega, by omega⟩)]
    rw [List.nil_append]
    congr 1
    apply List.map_congr_left
    intro i _
    rw [cntrStep_iterate_one i]

/-- C5, witness: the numbering applied to two lines, the band property
applied to a one-line struct, and the overflow threshold hit concretely. -/
theorem claim_C5_witness :
    (parse_struct_fields [] (List.replicate 2 (str "x: bool")) =
      .ok ((List.range 2).map fun (i : Nat) =>
        ⟨str "x", str "bool", str "bool",
          if i < 18999 then (i : Int) + 1 else (i : Int) + 1001⟩))
    ∧ ((⟨str "x", str "bool", str "bool", 1⟩ : ProtobufField).field_num < 19000
        ∨ 20000 ≤ (⟨str "x", str "bool", str "bool", 1⟩ : ProtobufField).field_num)
    ∧ parseStructFieldsGo [] [str "x: bool"] 536870911 [] = .error tooBigErr := by
  refine ⟨claim_C5.2.1 [] 2 (by omega), ?_, ?_⟩
  · exact claim_C5.1 [] [str "x: bool"] [⟨str "x", str "bool", str "bool", 1⟩] (by decide)
      ⟨str "x", str "bool", str "bool", 1⟩ (by simp)
  · exact claim_C5.2.2 [] (str "x: bool") [] []
      (some ⟨str "x", str "bool", str "bool", 536870911⟩) (structLineField_good [] 536870911)

theorem parseEnumFieldsGo_no_paren :
    ∀ (lines : List Str) (c : Int) (vars : List ProtobufEnumVariant),
      (∀ l ∈ lines, (dropTypeUnnecessaryStuff l).contains '(' = false) →
      parseEnumFieldsGo lines c vars =
        .ok (vars ++ lines.mapIdx fun i l => ⟨dropTypeUnnecessaryStuff l, c + i⟩) := by
  intro lines
  induction lines with
  | nil =>
    intro c vars _
    simp [parseEnumFieldsGo]
  | cons l rest ih =>
    intro c vars h
    have hl := h l (by simp)
    simp only [parseEnumFieldsGo, hl, Bool.false_eq_true, if_false]
    rw [ih (c + 1) (vars ++ [(⟨dropTypeUnnecessaryStuff l, c⟩ : ProtobufEnumVariant)])
      (fun x hx => h x (by simp [hx]))]
    rw [List.mapIdx_cons]
    have hfe : (fun (i : Nat) (l : Str) =>
          (⟨dropTypeUnnecessaryStuff l, c + ((i + 1 : Nat) : Int)⟩ : ProtobufEnumVariant)) =
        (fun (i : Nat) (l : Str) =>
          (⟨dropTypeUnnecessaryStuff l, (c + 1) + (i : Int)⟩ : ProtobufEnumVariant)) := by
      funext i l
      have harith : c + ((i + 1 : Nat) : Int) = (c + 1) + (i : Int) := by push_cast; ring
      rw [harith]
    rw [hfe, show c + ((0 : Nat) : Int) = c from by simp]
    simp [List.append_assoc]

theorem parseEnumFieldsGo_paren :
    ∀ (pre : List Str) (l : Str) (post : List Str) (c : Int) (vars : List ProtobufEnumVariant),
      (∀ p ∈ pre, (dropTypeUnnecessaryStuff p).contains '(' = false) →
      (dropTypeUnnecessaryStuff l).contains '(' = true →
      parseEnumFieldsGo (pre ++ l :: post) c vars =
        .error (valueCarryingErr (dropTypeUnnecessaryStuff l)) := by
  intro pre
  induction pre with
  | nil =>
    intro l post c vars _ hl
    simp only [List.nil_append, parseEnumFieldsGo, hl, if_true]
  | cons p pre ih =>
    intro l post c vars hpre hl
    have hp := hpre p (by simp)
    simp only [List.cons_append, parseEnumFieldsGo, hp, Bool.false_eq_true, if_false]
    exact ih l post (c + 1) _ (fun x hx => hpre x (by simp [hx])) hl

/-- C7, counterexample: a raw variant line may contain an opening parenthesis
(inside a trailing `//` comment) and still be accepted: the check runs only
after comment-stripping, so the claim as stated over raw lines is false. -/
theorem claim_C7_cex :
    (str "A // (x)").contains '(' = true
    ∧ parse_enum_fields [str "A // (x)"] = .ok [⟨str "A", 0⟩] := by
  exact ⟨by decide, by decide⟩

/-- C7 (amended): a variant line whose normalized form (trimmed, with any
trailing `//` comment cut and one trailing comma stripped) contains an
opening parenthesis makes the whole enum fail with the value-carrying-variant
error (at the first such line); when no normalized line contains one, the
variants are emitted in source order with values exactly 0..N-1. -/
theorem claim_C7 :
    (∀ (pre : List Str) (l : Str) (post : List Str),
       (∀ p ∈ pre, (dropTypeUnnecessaryStuff p).contains '(' = false) →
       (dropTypeUnnecessaryStuff l).contains '(' = true →
       parse_enum_fields (pre ++ l :: post) =
         .error (valueCarryingErr (dropTypeUnnecessaryStuff l)))
    ∧ (∀ lines : List Str,
       (∀ l ∈ lines, (dropTypeUnnecessaryStuff l).contains '(' = false) →
       parse_enum_fields lines =
         .ok (lines.mapIdx fun i l => ⟨dropTypeUnnecessaryStuff l, (i : Int)⟩)) := by
  constructor
  · intro pre l post hpre hl
    exact parseEnumFieldsGo_paren pre l post 0 [] hpre hl
  · intro lines h
    unfold parse_enum_fields
    rw [parseEnumFieldsGo_no_paren lines 0 [] h, List.nil_append]
    have hfe : (fun (i : Nat) l =>
          (⟨dropTypeUnnecessaryStuff l, (0 : Int) + i⟩ : ProtobufEnumVariant)) =
        (fun (i : Nat) l => (⟨dropTypeUnnecessaryStuff l, (i : Int)⟩ : ProtobufEnumVariant)) := by
      funext i l
      simp
    rw [hfe]

/-- C7, witness: the amended claim applied to a two-variant enum and to an
enum whose second variant carries a value. -/
theorem claim_C7_witness :
    parse_enum_fields [str "A", str "B,"] = .ok [⟨str "A", 0⟩, ⟨str "B", 1⟩]
    ∧ parse_enum_fields [str "A", str "B(u32)"] =
        .error (valueCarryingErr (str "B(u32)")) := by
  constructor
  · have h := claim_C7.2 [str "A", str "B,"] (by decide)
    rw [h]
    decide
  · have h := claim_C7.1 [str "A"] (str "B(u32)") [] (by decide) (by decide)
    rw [show ([str "A", str "B(u32)"] : List Str) = [str "A"] ++ (str "B(u32)") :: [] from rfl, h]
    decide

/-! ### Registry lemmas -/

theorem registryInsert_mem :
    ∀ {reg : Registry} {k : Str} {v : ProtobufEntity} {x : Str × ProtobufEntity},
      x ∈ registryInsert reg k v → x = (k, v) ∨ x ∈ reg := by
  intro reg
  induction reg with
  | nil =>
    intro k v x hx
    simp only [registryInsert, List.mem_singleton] at hx
    exact Or.inl hx
  | cons hd rest ih =>
    intro k v x hx
    obtain ⟨k', v'⟩ := hd
    simp only [registryInsert] at hx
    by_cases h1 : k < k'
    · rw [if_pos h1] at hx
      rcases List.mem_cons.mp hx with hx | hx
      · exact Or.inl hx
      · exact Or.inr hx
    · rw [if_neg h1] at hx
      by_cases h2 : k = k'
      · rw [if_pos h2] at hx
        rcases List.mem_cons.mp hx with hx | hx
        · exact Or.inl hx
        · exact Or.inr (List.mem_cons_of_mem _ hx)
      · rw [if_neg h2] at hx
        rcases List.mem_cons.mp hx with hx | hx
        · exact Or.inr (by simp [hx])
        · rcases ih hx with hx | hx
          · exact Or.inl hx
          · exact Or.inr (List.mem_cons_of_mem _ hx)

theorem registryInsert_pairwise :
    ∀ {reg : Registry} (k : Str) (v : ProtobufEntity),
      reg.Pairwise (fun a b => a.1 < b.1) →
      (registryInsert reg k v).Pairwise (fun a b => a.1 < b.1) := by
  intro reg
  induction reg with
  | nil =>
    intro k v _
    simp [registryInsert]
  | cons hd rest ih =>
    intro k v hp
    obtain ⟨k', v'⟩ := hd
    rw [List.pairwise_cons] at hp
    obtain ⟨hhd, hrest⟩ := hp
    simp only [registryInsert]
    by_cases h1 : k < k'
    · rw [if_pos h1]
      rw [List.pairwise_cons]
      constructor
      · intro a ha
        rcases List.mem_cons.mp ha with ha | ha
        · rw [ha]
          exact h1
        · exact lt_trans h1 (hhd a ha)
      · rw [List.pairwise_cons]
        exact ⟨hhd, hrest⟩
    · rw [if_neg h1]
      by_cases h2 : k = k'
      · rw [if_pos h2]
        rw [List.pairwise_cons]
        refine ⟨fun a ha => ?_, hrest⟩
        rw [h2]
        exact hhd a ha
      · rw [if_neg h2]
        rw [List.pairwise_cons]
        constructor
        · intro a ha
          rcases registryInsert_mem ha with ha | ha
          · rw [ha]
            rcases lt_trichotomy k k' with h | h | h
            · exact absurd h h1
            · exact absurd h h2
            · exact h
          · exact hhd a ha
        · exact ih k v hrest

theorem lookupReg_insert_self :
    ∀ (reg : Registry) (k : Str) (v : ProtobufEntity),
      lookupReg (registryInsert reg k v) k = some v := by
  intro reg
  induction reg with
  | nil =>
    intro k v
    simp [registryInsert, lookupReg]
  | cons hd rest ih =>
    intro k v
    obtain ⟨k', v'⟩ := hd
    simp only [registryInsert]
    by_cases h1 : k < k'
    · rw [if_pos h1]
      simp [lookupReg]
    · rw [if_neg h1]
      by_cases h2 : k = k'
      · rw [if_pos h2]
        simp [lookupReg]
      · rw [if_neg h2]
        simp only [lookupReg]
        rw [if_neg (fun h => h2 h.symm)]
        exact ih k v

theorem lookupReg_insert_other :
    ∀ (reg : Registry) (k : Str) (v : ProtobufEntity) (q : Str), q ≠ k →
      lookupReg (registryInsert reg k v) q = lookupReg reg q := by
  intro reg
  induction reg with
  | nil =>
    intro k v q hq
    simp only [registryInsert, lookupReg]
    rw [if_neg (fun h => hq h.symm)]
  | cons hd rest ih =>
    intro k v q hq
    obtain ⟨k', v'⟩ := hd
    simp only [registryInsert]
    by_cases h1 : k < k'
    · rw [if_pos h1]
      simp only [lookupReg]
      rw [if_neg (fun h => hq h.symm)]
    · rw [if_neg h1]
      by_cases h2 : k = k'
      · rw [if_pos h2]
        simp only [lookupReg]
        rw [if_neg (fun h => hq h.symm), if_neg (fun h => hq (h.symm.trans h2.symm))]
      · rw [if_neg h2]
        simp only [lookupReg]
        by_cases h3 : k' = q
        · rw [if_pos h3, if_pos h3]
        · rw [if_neg h3, if_neg h3]
          exact ih k v q hq

theorem lookupReg_mem :
    ∀ {reg : Registry} {k : Str} {v : ProtobufEntity},
      lookupReg reg k = some v → (k, v) ∈ reg := by
  intro reg
  induction reg with
  | nil =>
    intro k v h
    exact Option.noConfusion h
  | cons hd rest ih =>
    intro k v h
    obtain ⟨k', v'⟩ := hd
    simp only [lookupReg] at h
    by_cases h1 : k' = k
    · rw [if_pos h1] at h
      simp only [Option.some.injEq] at h
      rw [← h, h1]
      exact List.mem_cons_self _ _
    · rw [if_neg h1] at h
      exact List.mem_cons_of_mem _ (ih h)

/-! ### Processing-loop lemmas -/

theorem processMessages_lenient :
    ∀ (msgs : List (Str × List Str)) (known : List Str) (reg : Registry),
      processMessages false known msgs reg = .ok (messagesFold known msgs reg) := by
  intro msgs
  induction msgs with
  | nil =>
    intro known reg
    rfl
  | cons hd rest ih =>
    intro known reg
    obtain ⟨name, lines⟩ := hd
    simp only [processMessages, messagesFold]
    cases h : parse_struct_fields known lines with
    | ok fields => exact ih known _
    | error e =>
      simp only [Bool.false_eq_true, if_false]
      exact ih known reg

theorem processEnums_lenient :
    ∀ (enums : List (Str × List Str)) (known : List Str) (reg : Registry),
      processEnums false known enums reg = .ok (enumsFold known enums reg) := by
  intro enums
  induction enums with
  | nil =>
    intro known reg
    rfl
  | cons hd rest ih =>
    intro known reg
    obtain ⟨name, lines⟩ := hd
    simp only [processEnums, enumsFold]
    cases h : parse_enum_fields lines with
    | ok variants => exact ih known _
    | error e =>
      simp only [Bool.false_eq_true, if_false]
      exact ih known reg

theorem parseCore_lenient :
    ∀ (msgs enums : List (Str × List Str)) (known : List Str),
      parseCore false msgs enums known = .ok (successRegistry msgs enums known) := by
  intro msgs enums known
  unfold parseCore successRegistry
  rw [processMessages_lenient msgs known []]
  exact processEnums_lenient enums known _

theorem messagesFold_mem :
    ∀ (msgs : List (Str × List Str)) (known : List Str) (reg : Registry)
      (x : Str × ProtobufEntity),
      x ∈ messagesFold known msgs reg →
      x ∈ reg ∨ ∃ lines fields, (x.1, lines) ∈ msgs ∧
        parse_struct_fields known lines = .ok fields ∧ x.2 = ⟨.message fields, x.1⟩ := by
  intro msgs
  induction msgs with
  | nil =>
    intro known reg x hx
    exact Or.inl hx
  | cons hd rest ih =>
    intro known reg x hx
    obtain ⟨name, lines⟩ := hd
    simp only [messagesFold] at hx
    cases h : parse_struct_fields known lines with
    | ok fields =>
      rw [h] at hx
      rcases ih known _ x hx with hx | ⟨lines', fields', hmem, hok, hent⟩
      · rcases registryInsert_mem hx with hx | hx
        · refine Or.inr ⟨lines, fields, ?_, h, ?_⟩
          · rw [hx]
            simp
          · rw [hx]
        · exact Or.inl hx
      · exact Or.inr ⟨lines', fields', by simp [hmem], hok, hent⟩
    | error e =>
      rw [h] at hx
      rcases ih known reg x hx with hx | ⟨lines', fields', hmem, hok, hent⟩
      · exact Or.inl hx
      · exact Or.inr ⟨lines', fields', by simp [hmem], hok, hent⟩

theorem enumsFold_mem :
    ∀ (enums : List (Str × List Str)) (known : List Str) (reg : Registry)
      (x : Str × ProtobufEntity),
      x ∈ enumsFold known enums reg →
      x ∈ reg ∨ ∃ lines variants, (x.1, lines) ∈ enums ∧
        parse_enum_fields lines = .ok variants ∧ x.2 = ⟨.enum variants, x.1⟩ := by
  intro enums
  induction enums with
  | nil =>
    intro known reg x hx
    exact Or.inl hx
  | cons hd rest ih =>
    intro known reg x hx
    obtain ⟨name, lines⟩ := hd
    simp only [enumsFold] at hx
    cases h : parse_enum_fields lines with
    | ok variants =>
      rw [h] at hx
      rcases ih known _ x hx with hx | ⟨lines', variants', hmem, hok, hent⟩
      · rcases registryInsert_mem hx with hx | hx
        · refine Or.inr ⟨lines, variants, ?_, h, ?_⟩
          · rw [hx]
            simp
          · rw [hx]
        · exact Or.inl hx
      · exact Or.inr ⟨lines', variants', by simp [hmem], hok, hent⟩
    | error e =>
      rw [h] at hx
      rcases ih known reg x hx with hx | ⟨lines', variants', hmem, hok, hent⟩
      · exact Or.inl hx
      · exact Or.inr ⟨lines', variants', by simp [hmem], hok, hent⟩

theorem messagesFold_pairwise :
    ∀ (msgs : List (Str × List Str)) (known : List Str) (reg : Registry),
      reg.Pairwise (fun a b => a.1 < b.1) →
      (messagesFold known msgs reg).Pairwise (fun a b => a.1 < b.1) := by
  intro msgs
  induction msgs with
  | nil =>
    intro known reg hp
    exact hp
  | cons hd rest ih =>
    intro known reg hp
    obtain ⟨name, lines⟩ := hd
    simp only [messagesFold]
    cases h : parse_struct_fields known lines with
    | ok fields => exact ih known _ (registryInsert_pairwise name _ hp)
    | error e => exact ih known reg hp

theorem enumsFold_pairwise :
    ∀ (enums : List (Str × List Str)) (known : List Str) (reg : Registry),
      reg.Pairwise (fun a b => a.1 < b.1) →
      (enumsFold known enums reg).Pairwise (fun a b => a.1 < b.1) := by
  intro enums
  induction enums with
  | nil =>
    intro known reg hp
    exact hp
  | cons hd rest ih =>
    intro known reg hp
    obtain ⟨name, lines⟩ := hd
    simp only [enumsFold]
    cases h : parse_enum_fields lines with
    | ok variants => exact ih known _ (registryInsert_pairwise name _ hp)
    | error e => exact ih known reg hp

theorem successRegistry_pairwise (msgs enums : List (Str × List Str)) (known : List Str) :
    (successRegistry msgs enums known).Pairwise (fun a b => a.1 < b.1) :=
  enumsFold_pairwise enums known _ (messagesFold_pairwise msgs known [] (by simp))

theorem messagesFold_no_name :
    ∀ (msgs : List (Str × List Str)) (known : List Str) (reg : Registry) (n : Str),
      n ∉ msgs.map Prod.fst →
      lookupReg (messagesFold known msgs reg) n = lookupReg reg n := by
  intro msgs
  induction msgs with
  | nil =>
    intro known reg n _
    rfl
  | cons hd rest ih =>
    intro known reg n hn
    obtain ⟨name, lines⟩ := hd
    simp only [List.map_cons, List.mem_cons] at hn
    push_neg at hn
    simp only [messagesFold]
    cases h : parse_struct_fields known lines with
    | ok fields =>
      rw [ih known _ n hn.2]
      exact lookupReg_insert_other reg name _ n hn.1
    | error e => exact ih known reg n hn.2

theorem enumsFold_no_name :
    ∀ (enums : List (Str × List Str)) (known : List Str) (reg : Registry) (n : Str),
      n ∉ enums.map Prod.fst →
      lookupReg (enumsFold known enums reg) n = lookupReg reg n := by
  intro enums
  induction enums with
  | nil =>
    intro known reg n _
    rfl
  | cons hd rest ih =>
    intro known reg n hn
    obtain ⟨name, lines⟩ := hd
    simp only [List.map_cons, List.mem_cons] at hn
    push_neg at hn
    simp only [enumsFold]
    cases h : parse_enum_fields lines with
    | ok variants =>
      rw [ih known _ n hn.2]
      exact lookupReg_insert_other reg name _ n hn.1
    | error e => exact ih known reg n hn.2

theorem messagesFold_append :
    ∀ (a b : List (Str × List Str)) (known : List Str) (reg : Registry),
      messagesFold known (a ++ b) reg = messagesFold known b (messagesFold known a reg) := by
  intro a
  induction a with
  | nil =>
    intro b known reg
    rfl
  | cons hd rest ih =>
    intro b known reg
    obtain ⟨name, lines⟩ := hd
    simp only [List.cons_append, messagesFold]
    cases h : parse_struct_fields known lines with
    | ok fields => exact ih b known _
    | error e => exact ih b known reg

theorem processMessages_ok_of_all :
    ∀ (msgs : List (Str × List Str)) (strict : Bool) (known : List Str) (reg : Registry),
      (∀ d ∈ msgs, ∃ fs, parse_struct_fields known d.2 = .ok fs) →
      ∃ reg', processMessages strict known msgs reg = .ok reg' := by
  intro msgs
  induction msgs with
  | nil =>
    intro strict known reg _
    exact ⟨reg, rfl⟩
  | cons hd rest ih =>
    intro strict known reg hall
    obtain ⟨name, lines⟩ := hd
    obtain ⟨fs, hfs⟩ := hall (name, lines) (by simp)
    simp only [processMessages, hfs]
    exact ih strict known _ (fun d hd => hall d (by simp [hd]))

theorem processEnums_ok_of_all :
    ∀ (enums : List (Str × List Str)) (strict : Bool) (known : List Str) (reg : Registry),
      (∀ d ∈ enums, ∃ vs, parse_enum_fields d.2 = .ok vs) →
      ∃ reg', processEnums strict known enums reg = .ok reg' := by
  intro enums
  induction enums with
  | nil =>
    intro strict known reg _
    exact ⟨reg, rfl⟩
  | cons hd rest ih =>
    intro strict known reg hall
    obtain ⟨name, lines⟩ := hd
    obtain ⟨vs, hvs⟩ := hall (name, lines) (by simp)
    simp only [processEnums, hvs]
    exact ih strict known _ (fun d hd => hall d (by simp [hd]))

theorem processMessages_strict_fail :
    ∀ (pre : List (Str × List Str)) (known : List Str) (n : Str) (ls : List Str)
      (post : List (Str × List Str)) (e : Err) (reg : Registry),
      (∀ d ∈ pre, ∃ fs, parse_struct_fields known d.2 = .ok fs) →
      parse_struct_fields known ls = .error e →
      processMessages true known (pre ++ (n, ls) :: post) reg = .error (structFailErr e n) := by
  intro pre
  induction pre with
  | nil =>
    intro known n ls post e reg _ he
    simp only [List.nil_append, processMessages, he, if_true]
  | cons hd rest ih =>
    intro known n ls post e reg hall he
    obtain ⟨name, lines⟩ := hd
    obtain ⟨fs, hfs⟩ := hall (name, lines) (by simp)
    simp only [List.cons_append, processMessages, hfs]
    exact ih known n ls post e _ (fun d hd => hall d (by simp [hd])) he

theorem processEnums_strict_fail :
    ∀ (epre : List (Str × List Str)) (known : List Str) (n : Str) (ls : List Str)
      (epost : List (Str × List Str)) (e : Err) (reg : Registry),
      (∀ d ∈ epre, ∃ vs, parse_enum_fields d.2 = .ok vs) →
      parse_enum_fields ls = .error e →
      processEnums true known (epre ++ (n, ls) :: epost) reg = .error (enumFailErr e n) := by
  intro epre
  induction epre with
  | nil =>
    intro known n ls epost e reg _ he
    simp only [List.nil_append, processEnums, he, if_true]
  | cons hd rest ih =>
    intro known n ls epost e reg hall he
    obtain ⟨name, lines⟩ := hd
    obtain ⟨vs, hvs⟩ := hall (name, lines) (by simp)
    simp only [List.cons_append, processEnums, hvs]
    exact ih known n ls epost e _ (fun d hd => hall d (by simp [hd])) he

/-! ### Renderer lemmas -/

theorem generate_fold_none :
    ∀ (types : Registry), types.foldl generateStep none = none := by
  intro types
  induction types with
  | nil => rfl
  | cons kv rest ih =>
    simp only [List.foldl_cons]
    exact ih

theorem generate_fold_header :
    ∀ (types : Registry) (acc : String) (s : String),
      types.foldl generateStep (some acc) = some s → ∃ t, s = acc ++ t := by
  intro types
  induction types with
  | nil =>
    intro acc s h
    simp only [List.foldl_nil, Option.some.injEq] at h
    exact ⟨"", by rw [← h, String.append_empty]⟩
  | cons kv rest ih =>
    intro acc s h
    simp only [List.foldl_cons] at h
    cases hr : renderEntity kv.1 kv.2 with
    | some e =>
      have hstep : generateStep (some acc) kv = some (acc ++ e) := by
        unfold generateStep
        rw [hr]
        rfl
      rw [hstep] at h
      obtain ⟨t, ht⟩ := ih (acc ++ e) s h
      exact ⟨e ++ t, by rw [ht, String.append_assoc]⟩
    | none =>
      have hstep : generateStep (some acc) kv = none := by
        unfold generateStep
        rw [hr]
        rfl
      rw [hstep, generate_fold_none rest] at h
      exact Option.noConfusion h

/-! ### Extraction duplicate-warning lemmas -/

theorem collectGo_warns_mono :
    ∀ (names acc : List Str) (warns : List String) (w : String),
      w ∈ warns → w ∈ (collectKnownTypesGo names acc warns).2 := by
  intro names
  induction names with
  | nil =>
    intro acc warns w hw
    exact hw
  | cons m rest ih =>
    intro acc warns w hw
    simp only [collectKnownTypesGo]
    by_cases hm : m ∈ acc
    · rw [if_pos hm]
      exact ih _ _ w (by simp [hw])
    · rw [if_neg hm]
      exact ih _ _ w hw

theorem collectGo_dup_warn :
    ∀ (names1 : List Str) (n : Str) (names2 acc : List Str) (warns : List String),
      n ∈ acc ∨ n ∈ names1 →
      dupWarning n ∈ (collectKnownTypesGo (names1 ++ n :: names2) acc warns).2 := by
  intro names1
  induction names1 with
  | nil =>
    intro n names2 acc warns hn
    rcases hn with hn | hn
    · simp only [List.nil_append, collectKnownTypesGo, if_pos hn]
      exact collectGo_warns_mono names2 acc _ _ (by simp)
    · simp at hn
  | cons m rest ih =>
    intro n names2 acc warns hn
    simp only [List.cons_append, collectKnownTypesGo]
    by_cases hm : m ∈ acc
    · rw [if_pos hm]
      apply ih n names2 acc _
      rcases hn with hn | hn
      · exact Or.inl hn
      · rcases List.mem_cons.mp hn with hn | hn
        · exact Or.inl (by rw [hn]; exact hm)
        · exact Or.inr hn
    · rw [if_neg hm]
      apply ih n names2 (acc ++ [m]) warns
      rcases hn with hn | hn
      · exact Or.inl (by simp [hn])
      · rcases List.mem_cons.mp hn with hn | hn
        · exact Or.inl (by simp [hn])
        · exact Or.inr hn

/-! ### Claims C6, C8, C9: the run loop, the renderer, duplicate names -/

/-- C6: (i) the lenient run never fails and its registry is exactly the
fold over the successfully resolving entities; (ii) every entity in that
registry is the complete result of one successful declaration — there is no
partial entity; (iii) in strict mode the first failing struct aborts the
whole run with an error wrapping that struct's failure, and (iv) likewise
for the first failing enum once all structs succeeded; (v) the wrapping
error carries the entity's failure as its cause. -/
theorem claim_C6 :
    (∀ (msgs enums : List (Str × List Str)) (known : List Str),
       parseCore false msgs enums known = .ok (successRegistry msgs enums known))
    ∧ (∀ (msgs enums : List (Str × List Str)) (known : List Str) (n : Str)
         (ent : ProtobufEntity),
       lookupReg (successRegistry msgs enums known) n = some ent →
       (∃ lines fields, (n, lines) ∈ msgs ∧ parse_struct_fields known lines = .ok fields ∧
          ent = ⟨.message fields, n⟩)
       ∨ (∃ lines variants, (n, lines) ∈ enums ∧ parse_enum_fields lines = .ok variants ∧
          ent = ⟨.enum variants, n⟩))
    ∧ (∀ (known : List Str) (pre post enums : List (Str × List Str)) (n : Str)
         (ls : List Str) (e : Err),
       (∀ d ∈ pre, ∃ fs, parse_struct_fields known d.2 = .ok fs) →
       parse_struct_fields known ls = .error e →
       parseCore true (pre ++ (n, ls) :: post) enums known = .error (structFailErr e n))
    ∧ (∀ (known : List Str) (msgs epre epost : List (Str × List Str)) (n : Str)
         (ls : List Str) (e : Err),
       (∀ d ∈ msgs, ∃ fs, parse_struct_fields known d.2 = .ok fs) →
       (∀ d ∈ epre, ∃ vs, parse_enum_fields d.2 = .ok vs) →
       parse_enum_fields ls = .error e →
       parseCore true msgs (epre ++ (n, ls) :: epost) known = .error (enumFailErr e n))
    ∧ (∀ (e : Err) (n : Str),
       (structFailErr e n).cause = some e ∧ (enumFailErr e n).cause = some e) := by
  refine ⟨parseCore_lenient, ?_, ?_, ?_, fun e n => ⟨rfl, rfl⟩⟩
  · intro msgs enums known n ent hl
    have hmem := lookupReg_mem hl
    rcases enumsFold_mem enums known _ (n, ent) hmem with hmem2 | ⟨lines, variants, hm, hok, hent⟩
    · rcases messagesFold_mem msgs known [] (n, ent) hmem2 with hmem3 | ⟨lines, fields, hm, hok, hent⟩
      · simp at hmem3
      · exact Or.inl ⟨lines, fields, hm, hok, hent⟩
    · exact Or.inr ⟨lines, variants, hm, hok, hent⟩
  · intro known pre post enums n ls e hall he
    unfold parseCore
    rw [processMessages_strict_fail pre known n ls post e [] hall he]
  · intro known msgs epre epost n ls e hallm halle he
    unfold parseCore
    obtain ⟨reg', hreg⟩ := processMessages_ok_of_all msgs true known [] hallm
    rw [hreg]
    exact processEnums_strict_fail epre known n ls epost e reg' halle he

/-- C6, witness: a failing struct aborts a strict run wrapping its error, a
failing enum likewise, and the lenient registry entry of a resolved struct is
traced back to its declaration. -/
theorem claim_C6_witness :
    (parseCore true [(str "B", [str "y: Nope"])] [] [] =
      .error (structFailErr (unknownTypeErr (str "Nope")) (str "B")))
    ∧ (parseCore true [] [(str "E", [str "A(u32)"])] [] =
      .error (enumFailErr (valueCarryingErr (str "A(u32)")) (str "E")))
    ∧ ((∃ lines fields, ((str "Foo"), lines) ∈ [((str "Foo"), [str "x: bool"])] ∧
          parse_struct_fields [str "Foo"] lines = .ok fields ∧
          (⟨.message [⟨str "x", str "bool", str "bool", 1⟩], str "Foo"⟩ : ProtobufEntity) =
            ⟨.message fields, str "Foo"⟩)
       ∨ (∃ lines variants, ((str "Foo"), lines) ∈ ([] : List (Str × List Str)) ∧
          parse_enum_fields lines = .ok variants ∧
          (⟨.message [⟨str "x", str "bool", str "bool", 1⟩], str "Foo"⟩ : ProtobufEntity) =
            ⟨.enum variants, str "Foo"⟩)) := by
  refine ⟨?_, ?_, ?_⟩
  · exact claim_C6.2.2.1 [] [] [] [] (str "B") [str "y: Nope"] (unknownTypeErr (str "Nope"))
      (by simp) (by decide)
  · exact claim_C6.2.2.2.1 [] [] [] [] (str "E") [str "A(u32)"] (valueCarryingErr (str "A(u32)"))
      (by simp) (by simp) (by decide)
  · exact claim_C6.2.1 [((str "Foo"), [str "x: bool"])] [] [str "Foo"] (str "Foo")
      ⟨.message [⟨str "x", str "bool", str "bool", 1⟩], str "Foo"⟩ (by decide)

/-- C8: the rendered schema always begins with the `syntax = "proto3";`
line (exactly this line alone for an empty registry); the registry produced
by a run is sorted in strictly ascending name order, which is the order the
renderer walks; and messages and enums render their fields/variants in the
claimed line formats, exhibited on the specification's own end-to-end
examples. -/
theorem claim_C8 :
    generate [] = some "syntax = \"proto3\";\n"
    ∧ (∀ (types : Registry) (s : String), generate types = some s →
        ∃ t, s = "syntax = \"proto3\";\n" ++ t)
    ∧ (∀ (msgs enums : List (Str × List Str)) (known : List Str),
        (successRegistry msgs enums known).Pairwise (fun a b => a.1 < b.1))
    ∧ generate (successRegistry [(str "X", [str "name: String", str "values: Vec<i64>"])] []
        [str "X"]) =
        some "syntax = \"proto3\";\n\nmessage X \x7b\n  string name = 1;\n  repeated int64 values = 2;\n\x7d\n"
    ∧ generate (successRegistry [] [(str "E", [str "A", str "B"])] [str "E"]) =
        some "syntax = \"proto3\";\n\nenum E \x7b\n  A = 0;\n  B = 1;\n\x7d\n" := by
  refine ⟨rfl, ?_, fun msgs enums known => successRegistry_pairwise msgs enums known,
    by decide, by decide⟩
  intro types s h
  exact generate_fold_header types _ s h

/-- C8, witness: the header-prefix property applied to the rendered
single-enum registry. -/
theorem claim_C8_witness :
    ∃ t, "syntax = \"proto3\";\n\nenum E \x7b\n  A = 0;\n  B = 1;\n\x7d\n" =
      "syntax = \"proto3\";\n" ++ t :=
  claim_C8.2.1 (successRegistry [] [(str "E", [str "A", str "B"])] [str "E"]) _ (by decide)

/-- C9, counterexample: when the later of two same-named declarations fails
to resolve, the registry keeps the earlier declaration's entity, so "the
final registry contains the later declaration's fields" is false as stated. -/
theorem claim_C9_cex :
    parse_struct_fields [str "Foo"] [str "y: Nope"] = .error (unknownTypeErr (str "Nope"))
    ∧ parseCore false [(str "Foo", [str "x: bool"]), (str "Foo", [str "y: Nope"])] [] [str "Foo"] =
        .ok [(str "Foo", ⟨.message [⟨str "x", str "bool", str "bool", 1⟩], str "Foo"⟩)] := by
  exact ⟨by decide, by decide⟩

theorem countP_eq_one_of_nodup_mem :
    ∀ {l : List Str} {n : Str}, l.Nodup → n ∈ l →
      l.countP (fun k => decide (k = n)) = 1 := by
  intro l
  induction l with
  | nil =>
    intro n _ hm
    simp at hm
  | cons a l ih =>
    intro n hnd hm
    rw [List.nodup_cons] at hnd
    obtain ⟨ha, hnd⟩ := hnd
    rw [List.countP_cons]
    rcases List.mem_cons.mp hm with hm | hm
    · have hz : l.countP (fun k => decide (k = n)) = 0 := by
        rw [List.countP_eq_zero]
        intro x hx
        simp only [decide_eq_true_eq]
        intro hxn
        exact ha (by rw [hxn, hm] at hx; exact hx)
      rw [hz]
      simp [hm.symm]
    · rw [ih hnd hm]
      have hne : ¬ a = n := fun h => ha (h ▸ hm)
      simp [hne]

/-- C9 (amended): a duplicate name makes the extraction emit a diagnostic but
never an error, and a run whose declarations all resolve succeeds regardless
of duplicates; when the same name is declared twice and the **later**
declaration resolves successfully (and the name does not recur afterwards),
the final registry holds exactly one entity under that name, and it carries
the later declaration's fields (last-write-wins); if the later declaration
fails in lenient mode, the earlier successful one remains. -/
theorem claim_C9 :
    (∀ (names1 : List Str) (n : Str) (names2 : List Str),
       n ∈ names1 → dupWarning n ∈ (collectKnownTypes (names1 ++ n :: names2)).2)
    ∧ (∀ (strict : Bool) (known : List Str) (msgs enums : List (Str × List Str)),
       (∀ d ∈ msgs, ∃ fs, parse_struct_fields known d.2 = .ok fs) →
       (∀ d ∈ enums, ∃ vs, parse_enum_fields d.2 = .ok vs) →
       ∃ reg, parseCore strict msgs enums known = .ok reg)
    ∧ (∀ (known : List Str) (pre mid post enums : List (Str × List Str)) (n : Str)
         (ls1 ls2 : List Str) (f2 : List ProtobufField),
       parse_struct_fields known ls2 = .ok f2 →
       n ∉ post.map Prod.fst → n ∉ enums.map Prod.fst →
       lookupReg (successRegistry (pre ++ (n, ls1) :: mid ++ (n, ls2) :: post) enums known) n =
           some ⟨.message f2, n⟩
         ∧ ((successRegistry (pre ++ (n, ls1) :: mid ++ (n, ls2) :: post) enums known).map
             Prod.fst).countP (fun k => decide (k = n)) = 1) := by
  refine ⟨?_, ?_, ?_⟩
  · intro names1 n names2 h
    exact collectGo_dup_warn names1 n names2 [] [] (Or.inr h)
  · intro strict known msgs enums hm he
    unfold parseCore
    obtain ⟨reg', hreg⟩ := processMessages_ok_of_all msgs strict known [] hm
    rw [hreg]
    exact processEnums_ok_of_all enums strict known reg' he
  · intro known pre mid post enums n ls1 ls2 f2 hok hpost henums
    have hlook : lookupReg (successRegistry (pre ++ (n, ls1) :: mid ++ (n, ls2) :: post) enums
        known) n = some ⟨.message f2, n⟩ := by
      unfold successRegistry
      rw [enumsFold_no_name enums known _ n henums]
      rw [show pre ++ (n, ls1) :: mid ++ (n, ls2) :: post =
        (pre ++ (n, ls1) :: mid) ++ ((n, ls2) :: post) from by simp]
      rw [messagesFold_append]
      simp only [messagesFold, hok]
      rw [messagesFold_no_name post known _ n hpost]
      exact lookupReg_insert_self _ n _
    refine ⟨hlook, ?_⟩
    have hpw := successRegistry_pairwise (pre ++ (n, ls1) :: mid ++ (n, ls2) :: post) enums known
    have hnd : (((successRegistry (pre ++ (n, ls1) :: mid ++ (n, ls2) :: post) enums
        known)).map Prod.fst).Nodup := by
      have hp2 := (List.pairwise_map).mpr hpw
      exact hp2.imp (fun h => ne_of_lt h)
    have hmem := lookupReg_mem hlook
    have hkey := List.mem_map_of_mem Prod.fst hmem
    exact countP_eq_one_of_nodup_mem hnd hkey

/-- C9, witness: the amended claim applied to a crate where `Foo` is declared
twice and the later declaration resolves. -/
theorem claim_C9_witness :
    (dupWarning (str "Foo") ∈ (collectKnownTypes ([str "Foo"] ++ (str "Foo") :: [])).2)
    ∧ (lookupReg (successRegistry ([] ++ (str "Foo", [str "y: u32"]) :: [] ++
          (str "Foo", [str "x: bool"]) :: []) [] [str "Foo"]) (str "Foo") =
        some ⟨.message [⟨str "x", str "bool", str "bool", 1⟩], str "Foo"⟩
      ∧ ((successRegistry ([] ++ (str "Foo", [str "y: u32"]) :: [] ++
          (str "Foo", [str "x: bool"]) :: []) [] [str "Foo"]).map
            Prod.fst).countP (fun k => decide (k = str "Foo")) = 1) := by
  constructor
  · exact claim_C9.1 [str "Foo"] (str "Foo") [] (by simp)
  · exact claim_C9.2.2 [str "Foo"] [] [] [] [] (str "Foo") [str "y: u32"] [str "x: bool"]
      [⟨str "x", str "bool", str "bool", 1⟩] (by decide) (by simp) (by simp)
